import Mathlib

/-!
Verification development for the meeting-manager transcription backend.

The definitions below are shallow embeddings of the TypeScript sources:
  * `src/backend/src/utils/name-extractor.ts`
  * `src/backend/src/transcription/google-speech.service.ts`
    (which also contains the Deepgram service in the same file)
  * `src/backend/src/transcription/batch-diarization.service.ts`

JavaScript strings are modelled as `List Char`, numbers that hold
times/confidences as `ℚ`, and JavaScript `Map`s as association lists that
preserve insertion order.  Fallible lookups are modelled with `Option`.
-/

/-- The set of characters matched by the JavaScript regex class `\s`
(ECMAScript WhiteSpace ∪ LineTerminator). -/
def jsWS (c : Char) : Bool :=
  let n := c.toNat
  n = 9 || n = 10 || n = 11 || n = 12 || n = 13 || n = 32 ||
  n = 160 || n = 0x1680 || (0x2000 ≤ n && n ≤ 0x200A) ||
  n = 0x2028 || n = 0x2029 || n = 0x202F || n = 0x205F ||
  n = 0x3000 || n = 0xFEFF

/-- Characters matched by `[a-zA-Z]`. -/
def isAsciiLetter (c : Char) : Bool :=
  (65 ≤ c.toNat && c.toNat ≤ 90) || (97 ≤ c.toNat && c.toNat ≤ 122)

/-- Characters matched by `[a-z]` (the sources lower-case their input
before applying the letter patterns). -/
def isLowerLetter (c : Char) : Bool :=
  97 ≤ c.toNat && c.toNat ≤ 122

/-- Characters matched by the JavaScript word class `\w` = `[A-Za-z0-9_]`;
`\b` boundaries are defined from this class. -/
def isWordChar (c : Char) : Bool :=
  isAsciiLetter c || (48 ≤ c.toNat && c.toNat ≤ 57) || c.toNat = 95

/-- ASCII lower-casing, as `String.prototype.toLowerCase` acts on ASCII. -/
def jsToLower (c : Char) : Char :=
  if 65 ≤ c.toNat && c.toNat ≤ 90 then Char.ofNat (c.toNat + 32) else c

/-- ASCII upper-casing, as `String.prototype.toUpperCase` acts on ASCII. -/
def jsToUpper (c : Char) : Char :=
  if 97 ≤ c.toNat && c.toNat ≤ 122 then Char.ofNat (c.toNat - 32) else c

/-- The apostrophe character. -/
def apoC : Char := Char.ofNat 39

/-- `String.prototype.trim`: strip `\s` characters from both ends. -/
def jsTrim (cs : List Char) : List Char :=
  ((cs.dropWhile jsWS).reverse.dropWhile jsWS).reverse

/-!
## `isValidName` (src/backend/src/utils/name-extractor.ts, lines 359–376)

```ts
export function isValidName(name: string): boolean {
  if (!name || name.length < 1 || name.length > 50) return false;
  if (!/[a-zA-Z]/.test(name)) return false;
  if (!/^[a-zA-Z\s'-]+$/.test(name)) return false;
  return true;
}
```
-/

/-- Characters allowed by the class `[a-zA-Z\s'-]`. -/
def validNameChar (c : Char) : Bool :=
  isAsciiLetter c || jsWS c || c = apoC || c = '-'

/-- Shallow embedding of `isValidName`. -/
def isValidName (s : String) : Bool :=
  if s.data.length < 1 || s.data.length > 50 then false
  else if !(s.data.any fun c => isAsciiLetter c) then false
  else if !(s.data.all validNameChar) then false
  else true

/-- The predicate stated by the specification sentence, read literally:
length 1–50, at least one letter, and only letters, *space* characters
(U+0020), apostrophes and hyphens. -/
def specValidName (s : String) : Prop :=
  1 ≤ s.data.length ∧ s.data.length ≤ 50 ∧
  (∃ c ∈ s.data, isAsciiLetter c = true) ∧
  (∀ c ∈ s.data, isAsciiLetter c = true ∨ c = ' ' ∨ c = apoC ∨ c = '-')

instance (s : String) : Decidable (specValidName s) := by
  unfold specValidName; infer_instance

/-- The characterisation that actually matches the code: `\s` accepts every
JavaScript whitespace character, not only the space. -/
def codeValidName (s : String) : Prop :=
  1 ≤ s.data.length ∧ s.data.length ≤ 50 ∧
  (∃ c ∈ s.data, isAsciiLetter c = true) ∧
  (∀ c ∈ s.data, isAsciiLetter c = true ∨ jsWS c = true ∨ c = apoC ∨ c = '-')

/-- A 51-character string used for the length test. -/
def fiftyOneAs : String := String.mk (List.replicate 51 'a')

theorem codeValidName_iff (s : String) :
    isValidName s = true ↔ codeValidName s := by
  unfold isValidName
  by_cases h1 : s.data.length < 1
  · have hcond : (decide (s.data.length < 1) || decide (s.data.length > 50)) = true := by
      simp only [Bool.or_eq_true, decide_eq_true_eq]; exact Or.inl h1
    rw [hcond, if_pos rfl]
    constructor
    · intro h; exact absurd h (by simp)
    · intro hC
      obtain ⟨ha, -⟩ := hC
      exact absurd ha (by omega)
  · by_cases h2 : s.data.length > 50
    · have hcond : (decide (s.data.length < 1) || decide (s.data.length > 50)) = true := by
        simp only [Bool.or_eq_true, decide_eq_true_eq]; exact Or.inr h2
      rw [hcond, if_pos rfl]
      constructor
      · intro h; exact absurd h (by simp)
      · intro hC
        obtain ⟨-, hb, -⟩ := hC
        exact absurd hb (by omega)
    · have hcond : (decide (s.data.length < 1) || decide (s.data.length > 50)) = false := by
        simp only [Bool.or_eq_false_iff, decide_eq_false_iff_not]; exact ⟨h1, h2⟩
      rw [hcond, if_neg (by simp)]
      cases hany : (s.data.any fun c => isAsciiLetter c) with
      | false =>
        simp only [Bool.not_false, if_pos rfl]
        constructor
        · intro h; exact absurd h (by simp)
        · intro hC
          obtain ⟨-, -, ⟨c, hc, hlet⟩, -⟩ := hC
          have : (s.data.any fun c => isAsciiLetter c) = true :=
            List.any_eq_true.mpr ⟨c, hc, hlet⟩
          rw [hany] at this
          exact absurd this (by simp)
      | true =>
        simp only [Bool.not_true]
        rw [if_neg (by simp)]
        cases hall : s.data.all validNameChar with
        | false =>
          simp only [Bool.not_false, if_pos rfl]
          constructor
          · intro h; exact absurd h (by simp)
          · intro hC
            obtain ⟨-, -, -, hforall⟩ := hC
            have : s.data.all validNameChar = true := by
              rw [List.all_eq_true]
              intro c hc
              have hc2 := hforall c hc
              simp only [validNameChar, Bool.or_eq_true, decide_eq_true_eq]
              tauto
            rw [hall] at this
            exact absurd this (by simp)
        | true =>
          simp only [Bool.not_true]
          rw [if_neg (by simp)]
          simp only [true_iff]
          refine ⟨by omega, by omega, ?_, ?_⟩
          · exact List.any_eq_true.mp hany
          · intro c hc
            have hc2 := List.all_eq_true.mp hall c hc
            simp only [validNameChar, Bool.or_eq_true, decide_eq_true_eq] at hc2
            tauto

/-- The string `a<TAB>b`. -/
def tabName : String := String.mk ['a', Char.ofNat 9, 'b']

/-- The string `O'Brien`. -/
def oBrien : String := String.mk ['O', apoC, 'B', 'r', 'i', 'e', 'n']

/-- **C9, counterexample.**  The claim reads `isValidName` as accepting only
letters, spaces, apostrophes and hyphens.  The code accepts every JavaScript
`\s` whitespace character: on the string `"a<TAB>b"` the function returns
`true` although the string contains a tab, which the claimed characterisation
excludes. -/
theorem isValidName_space_counterexample :
    isValidName tabName = true ∧ ¬ specValidName tabName := by
  constructor
  · decide
  · decide

/-- **C9, amended.**  `isValidName s` returns `true` exactly when `s` has
length 1 to 50, contains at least one ASCII letter, and consists only of
letters, JavaScript whitespace characters (not just the space), apostrophes
and hyphens; in particular it rejects `""`, the 51-character string
`"aa…a"` and `"John3"`, and accepts `"Mary-Jane"` and `"O'Brien"`. -/
theorem isValidName_characterisation :
    (∀ s : String, isValidName s = true ↔ codeValidName s) ∧
    isValidName "" = false ∧
    isValidName fiftyOneAs = false ∧
    isValidName "John3" = false ∧
    isValidName "Mary-Jane" = true ∧
    isValidName oBrien = true := by
  refine ⟨codeValidName_iff, by decide, by decide, by decide, by decide, by decide⟩

/-!
## Result normalizers
(`google-speech.service.ts`, `handleStreamData` lines 163–234, and the
Deepgram service in the same file, `handleTranscript` lines 790–861)

Protobuf `Duration` values are modelled as parsed integers, time values as
rationals (seconds).
-/

/-- A protobuf duration: seconds and nanos (absent fields default to 0 via
`parseInt(x || '0')`). -/
structure GDuration where
  seconds : Option Int
  nanos : Option Int
deriving DecidableEq

/-- `durationToSeconds` from `google-speech.service.ts` lines 236–241. -/
def durationToSeconds : Option GDuration → ℚ
  | none => 0
  | some d => (d.seconds.getD 0 : ℚ) + (d.nanos.getD 0 : ℚ) / 1000000000

/-- A word entry of a Google streaming alternative. -/
structure GWordInfo where
  word : Option (List Char)
  speakerTag : Option Nat
  startTime : Option GDuration
  endTime : Option GDuration
deriving DecidableEq

/-- A Google recognition alternative. -/
structure GAlternative where
  transcript : Option (List Char)
  confidence : Option ℚ
  words : List GWordInfo
deriving DecidableEq

/-- A Google streaming recognition result. -/
structure GResult where
  alternatives : List GAlternative
  isFinal : Option Bool
deriving DecidableEq

/-- The payload handed to `handleStreamData`. -/
structure GData where
  results : List GResult
deriving DecidableEq

/-- A word of the canonical transcript event. -/
structure TWord where
  word : List Char
  speakerTag : Nat
  startTime : ℚ
  endTime : ℚ
deriving DecidableEq

/-- The canonical transcript event emitted by the normalizers. -/
structure TranscriptResult where
  transcript : List Char
  confidence : ℚ
  isFinal : Bool
  speakerTag : Nat
  startTime : ℚ
  endTime : ℚ
  words : List TWord
deriving DecidableEq

/-- `wordInfo.speakerTag || 1`: `undefined` and `0` are falsy. -/
def effTagG (w : GWordInfo) : Nat :=
  match w.speakerTag with
  | none => 1
  | some t => if t = 0 then 1 else t

/-- One `Map.set(tag, (get(tag) || 0) + 1)` step: increment in place if the
key exists (JavaScript `Map` preserves insertion order), else append. -/
def bump : List (Nat × Nat) → Nat → List (Nat × Nat)
  | [], t => [(t, 1)]
  | (k, c) :: rest, t =>
    if k = t then (k, c + 1) :: rest else (k, c) :: bump rest t

/-- The `speakerTagCounts` map built by the word loop. -/
def tallyFrom (m : List (Nat × Nat)) (l : List Nat) : List (Nat × Nat) :=
  l.foldl bump m

/-- The selection loop: `let speakerTag = 1; let maxCount = 0;
for ([tag, count] of speakerTagCounts) if (count > maxCount) {...}`. -/
def selectDominant (m : List (Nat × Nat)) : Nat × Nat :=
  m.foldl (fun best e => if best.2 < e.2 then e else best) (1, 0)

/-- Dominant-speaker computation shared by both normalizers, as a function
of the word-level effective speaker tags. -/
def domTag (tags : List Nat) : Nat :=
  (selectDominant (tallyFrom [] tags)).1

/-- The running `startTime` of the word loop:
`if (startTime === 0) startTime = wordStartTime`. -/
def computeStart (starts : List ℚ) : ℚ :=
  starts.foldl (fun st x => if st = 0 then x else st) 0

/-- The running `endTime` of the word loop: `endTime = wordEndTime`. -/
def computeEnd (ends : List ℚ) : ℚ :=
  ends.foldl (fun _ x => x) 0

/-- The `words` array built by the Google word loop. -/
def gBuildWords (ws : List GWordInfo) : List TWord :=
  ws.map fun w =>
    { word := w.word.getD []
      speakerTag := effTagG w
      startTime := durationToSeconds w.startTime
      endTime := durationToSeconds w.endTime }

/-- Shallow embedding of `handleStreamData` (lines 163–234): `none` models
the early returns that emit nothing. -/
def handleStreamData (data : GData) : Option TranscriptResult :=
  match data.results with
  | [] => none
  | result :: _ =>
    match result.alternatives with
    | [] => none
    | alternative :: _ =>
      let ws := alternative.words
      some
        { transcript := alternative.transcript.getD []
          confidence := alternative.confidence.getD 0
          isFinal := result.isFinal.getD false
          speakerTag := domTag (ws.map effTagG)
          startTime := computeStart (ws.map (fun w => durationToSeconds w.startTime))
          endTime := computeEnd (ws.map (fun w => durationToSeconds w.endTime))
          words := gBuildWords ws }

/-- A word of a Deepgram alternative. -/
structure DgWord where
  word : Option (List Char)
  punctuated_word : Option (List Char)
  speaker : Option Nat
  start : Option ℚ
  stop : Option ℚ
  confidence : Option ℚ
deriving DecidableEq

/-- A Deepgram alternative. -/
structure DgAlternative where
  transcript : Option (List Char)
  confidence : Option ℚ
  words : List DgWord
deriving DecidableEq

/-- The payload handed to `handleTranscript` (`data.channel.alternatives`,
`data.is_final`). -/
structure DgData where
  alternatives : List DgAlternative
  is_final : Option Bool
deriving DecidableEq

/-- `(wordInfo.speaker ?? 0) + 1`: nullish coalescing, Deepgram speakers are
0-indexed. -/
def effTagDg (w : DgWord) : Nat :=
  w.speaker.getD 0 + 1

/-- A word of the Deepgram canonical event. -/
structure DgTWord where
  word : List Char
  speakerTag : Nat
  startTime : ℚ
  endTime : ℚ
  confidence : ℚ
deriving DecidableEq

/-- The Deepgram canonical transcript event. -/
structure DgTranscriptResult where
  transcript : List Char
  confidence : ℚ
  isFinal : Bool
  speakerTag : Nat
  startTime : ℚ
  endTime : ℚ
  words : List DgTWord
deriving DecidableEq

/-- `wordInfo.word || wordInfo.punctuated_word || ''` (empty string falsy). -/
def dgWordText (w : DgWord) : List Char :=
  match w.word with
  | some t => if t = [] then (match w.punctuated_word with
      | some p => p
      | none => []) else t
  | none =>
    match w.punctuated_word with
    | some p => p
    | none => []

/-- `wordInfo.start || 0` (`0` is falsy, so this is `getD 0` on rationals
only when absent; a present `0` also yields `0`). -/
def dgNum (x : Option ℚ) : ℚ := x.getD 0

/-- The `words` array built by the Deepgram word loop. -/
def dgBuildWords (ws : List DgWord) : List DgTWord :=
  ws.map fun w =>
    { word := dgWordText w
      speakerTag := effTagDg w
      startTime := dgNum w.start
      endTime := dgNum w.stop
      confidence := dgNum w.confidence }

/-- Shallow embedding of the Deepgram `handleTranscript` (lines 790–861):
`none` models the early returns (no alternatives, or empty/blank
transcript). -/
def handleTranscript (data : DgData) : Option DgTranscriptResult :=
  match data.alternatives with
  | [] => none
  | alternative :: _ =>
    match alternative.transcript with
    | none => none
    | some transcript =>
      if jsTrim transcript = [] then none
      else
        let ws := alternative.words
        some
          { transcript := jsTrim transcript
            confidence := alternative.confidence.getD 0
            isFinal := data.is_final.getD false
            speakerTag := domTag (ws.map effTagDg)
            startTime := computeStart (ws.map (fun w => dgNum w.start))
            endTime := computeEnd (ws.map (fun w => dgNum w.stop))
            words := dgBuildWords ws }

/-- Words list of the first alternative of the first result (the ones the
Google normalizer processes). -/
def gWords (d : GData) : List GWordInfo :=
  match d.results with
  | [] => []
  | result :: _ =>
    match result.alternatives with
    | [] => []
    | alternative :: _ => alternative.words

/-- Words list processed by the Deepgram normalizer. -/
def dgWords (d : DgData) : List DgWord :=
  match d.alternatives with
  | [] => []
  | alternative :: _ => alternative.words

/-- Index of the first occurrence of `t` in a list (length of the list if
`t` does not occur). -/
def fidx (t : Nat) : List Nat → Nat
  | [] => 0
  | x :: l => if x = t then 0 else fidx t l + 1

theorem fidx_append_of_mem {t : Nat} {l : List Nat} (h : t ∈ l) (l2 : List Nat) :
    fidx t (l ++ l2) = fidx t l := by
  induction l with
  | nil => cases h
  | cons x l ih =>
    by_cases hx : x = t
    · simp [fidx, hx]
    · rcases List.mem_cons.mp h with h | h
      · exact absurd h.symm hx
      · show (if x = t then 0 else fidx t (l ++ l2) + 1) = _
        simp [fidx, hx, ih h]

theorem fidx_lt_length_of_mem {t : Nat} {l : List Nat} (h : t ∈ l) :
    fidx t l < l.length := by
  induction l with
  | nil => cases h
  | cons x l ih =>
    by_cases hx : x = t
    · simp [fidx, hx]
    · rcases List.mem_cons.mp h with h | h
      · exact absurd h.symm hx
      · simp only [fidx, hx, if_false, List.length_cons]
        exact Nat.succ_lt_succ (ih h)

theorem fidx_eq_length_of_not_mem {t : Nat} {l : List Nat} (h : t ∉ l) :
    fidx t l = l.length := by
  induction l with
  | nil => rfl
  | cons x l ih =>
    have hx : x ≠ t := fun he => h (he ▸ List.mem_cons_self x l)
    have ht : t ∉ l := fun hm => h (List.mem_cons_of_mem x hm)
    simp [fidx, hx, ih ht]

/-- First occurrences of a list, in order. -/
def firstOccs : List Nat → List Nat
  | [] => []
  | x :: l => x :: (firstOccs l).filter (fun u => u ≠ x)

theorem mem_firstOccs {t : Nat} {l : List Nat} : t ∈ firstOccs l ↔ t ∈ l := by
  induction l with
  | nil => simp [firstOccs]
  | cons x l ih =>
    show t ∈ x :: (firstOccs l).filter (fun u => u ≠ x) ↔ _
    constructor
    · intro h
      rcases List.mem_cons.mp h with h | h
      · exact h ▸ List.mem_cons_self t l
      · rcases List.mem_filter.mp h with ⟨hm, -⟩
        exact List.mem_cons_of_mem x (ih.mp hm)
    · intro h
      by_cases hx : t = x
      · exact hx ▸ List.mem_cons_self x _
      · rcases List.mem_cons.mp h with h | h
        · exact absurd h hx
        · exact List.mem_cons_of_mem x
            (List.mem_filter.mpr ⟨ih.mpr h, by simpa using hx⟩)

theorem firstOccs_nodup (l : List Nat) : (firstOccs l).Nodup := by
  induction l with
  | nil => simp [firstOccs]
  | cons x l ih =>
    show (x :: (firstOccs l).filter (fun u => u ≠ x)).Nodup
    refine List.Nodup.cons ?_ (ih.filter _)
    intro hmem
    rcases List.mem_filter.mp hmem with ⟨-, hne⟩
    simp at hne

theorem firstOccs_append_singleton (l : List Nat) (x : Nat) :
    firstOccs (l ++ [x]) =
      if x ∈ l then firstOccs l else firstOccs l ++ [x] := by
  induction l with
  | nil => simp [firstOccs]
  | cons a l ih =>
    show firstOccs (a :: (l ++ [x])) = _
    show a :: (firstOccs (l ++ [x])).filter (fun u => u ≠ a) = _
    rw [ih]
    by_cases hx : x ∈ l
    · rw [if_pos hx, if_pos (List.mem_cons_of_mem a hx)]
      rfl
    · rw [if_neg hx, List.filter_append]
      by_cases hxa : x = a
      · rw [if_pos (List.mem_cons.mpr (Or.inl hxa))]
        have : List.filter (fun u => decide (u ≠ a)) [x] = [] := by
          simp [hxa]
        rw [this, List.append_nil]
        rfl
      · rw [if_neg (by simp [hxa, hx] : ¬ x ∈ a :: l)]
        have : List.filter (fun u => decide (u ≠ a)) [x] = [x] := by
          simp [hxa]
        rw [this]
        rfl

theorem firstOccs_pairwise_fidx (l : List Nat) :
    (firstOccs l).Pairwise (fun a b => fidx a l < fidx b l) := by
  induction l with
  | nil => simp [firstOccs]
  | cons x l ih =>
    show (x :: (firstOccs l).filter (fun u => u ≠ x)).Pairwise _
    refine List.Pairwise.cons ?_ ?_
    · intro b hb
      rcases List.mem_filter.mp hb with ⟨-, hbx⟩
      have hbx2 : b ≠ x := by simpa using hbx
      simp [fidx, hbx2.symm]
    · have hsub : ((firstOccs l).filter (fun u => u ≠ x)).Sublist (firstOccs l) :=
        List.filter_sublist _
      have hpw := List.Pairwise.sublist hsub ih
      refine hpw.imp_of_mem ?_
      intro a b ha hb hab
      have hax : a ≠ x := by simpa using (List.mem_filter.mp ha).2
      have hbx : b ≠ x := by simpa using (List.mem_filter.mp hb).2
      simp only [fidx, hax.symm, hbx.symm, if_false]
      omega

/-- The canonical form of the tally map: first occurrences paired with their
total counts. -/
def tallyCanon (l : List Nat) : List (Nat × Nat) :=
  (firstOccs l).map (fun t => (t, l.count t))

theorem bump_map_nodup (S : List Nat) (g : Nat → Nat) (x : Nat) (hS : S.Nodup) :
    bump (S.map fun t => (t, g t)) x =
      if x ∈ S then S.map (fun t => (t, if t = x then g t + 1 else g t))
      else (S.map fun t => (t, g t)) ++ [(x, 1)] := by
  induction S with
  | nil => simp [bump]
  | cons a S ih =>
    rcases List.nodup_cons.mp hS with ⟨hax, hnd⟩
    by_cases hxa : a = x
    · subst hxa
      rw [if_pos (List.mem_cons_self a S)]
      simp only [List.map_cons, bump, if_true]
      congr 1
      apply List.map_congr_left
      intro t ht
      have hta : ¬ (t = a) := fun he => hax (he ▸ ht)
      rw [if_neg hta]
    · simp only [List.map_cons, bump]
      rw [if_neg hxa, ih hnd]
      by_cases hxS : x ∈ S
      · rw [if_pos hxS, if_pos (List.mem_cons_of_mem a hxS)]
        rw [if_neg hxa]
      · have hnm : ¬ x ∈ a :: S := by
          simp only [List.mem_cons, not_or]
          exact ⟨fun h => hxa h.symm, hxS⟩
        rw [if_neg hxS, if_neg hnm]
        simp only [List.cons_append]

theorem bump_tallyCanon (pre : List Nat) (x : Nat) :
    bump (tallyCanon pre) x = tallyCanon (pre ++ [x]) := by
  unfold tallyCanon
  rw [bump_map_nodup _ _ _ (firstOccs_nodup pre)]
  by_cases hx : x ∈ pre
  · rw [if_pos (mem_firstOccs.mpr hx), firstOccs_append_singleton, if_pos hx]
    apply List.map_congr_left
    intro t ht
    by_cases htx : t = x
    · subst htx
      simp [List.count_append]
    · simp [List.count_append, htx]
  · rw [if_neg (fun h => hx (mem_firstOccs.mp h)), firstOccs_append_singleton,
      if_neg hx, List.map_append]
    congr 1
    · apply List.map_congr_left
      intro t ht
      have htx : t ≠ x := fun he => hx (he ▸ mem_firstOccs.mp ht)
      simp [List.count_append, htx]
    · have : x ∉ pre := hx
      simp [List.count_append, List.count_eq_zero_of_not_mem this]

theorem tallyFrom_canon (l pre : List Nat) :
    tallyFrom (tallyCanon pre) l = tallyCanon (pre ++ l) := by
  induction l generalizing pre with
  | nil => simp [tallyFrom]
  | cons x l ih =>
    show tallyFrom (bump (tallyCanon pre) x) l = _
    rw [bump_tallyCanon, ih]
    simp

theorem tally_eq_canon (l : List Nat) : tallyFrom [] l = tallyCanon l := by
  have h := tallyFrom_canon l []
  simpa [tallyCanon, firstOccs] using h

theorem selectDominant_foldl_charact (m : List (Nat × Nat)) (b : Nat × Nat) :
    (m.foldl (fun best e => if best.2 < e.2 then e else best) b = b ∧
      ∀ e ∈ m, e.2 ≤ b.2) ∨
    (∃ m1 e m2, m = m1 ++ e :: m2 ∧
      m.foldl (fun best e => if best.2 < e.2 then e else best) b = e ∧
      b.2 < e.2 ∧ (∀ x ∈ m1, x.2 < e.2) ∧ (∀ x ∈ m2, x.2 ≤ e.2)) := by
  induction m generalizing b with
  | nil => exact Or.inl ⟨rfl, by simp⟩
  | cons a m ih =>
    simp only [List.foldl_cons]
    by_cases hba : b.2 < a.2
    · rw [if_pos hba]
      rcases ih a with ⟨heq, hall⟩ | ⟨m1, e, m2, hsplit, heq, hlt, h1, h2⟩
      · exact Or.inr ⟨[], a, m, rfl, heq, hba, by simp, hall⟩
      · refine Or.inr ⟨a :: m1, e, m2, by rw [hsplit, List.cons_append],
          heq, lt_trans hba hlt, ?_, h2⟩
        intro x hx
        rcases List.mem_cons.mp hx with hx | hx
        · exact hx ▸ hlt
        · exact h1 x hx
    · rw [if_neg hba]
      rcases ih b with ⟨heq, hall⟩ | ⟨m1, e, m2, hsplit, heq, hlt, h1, h2⟩
      · refine Or.inl ⟨heq, ?_⟩
        intro e he
        rcases List.mem_cons.mp he with he | he
        · rw [he]; omega
        · exact hall e he
      · refine Or.inr ⟨a :: m1, e, m2, by rw [hsplit, List.cons_append],
          heq, hlt, ?_, h2⟩
        intro x hx
        rcases List.mem_cons.mp hx with hx | hx
        · rw [hx]; omega
        · exact h1 x hx

/-- The property the specification ascribes to the dominant speaker of a
word-tag list: a tag of maximal count whose first occurrence is earliest
among the tags attaining the maximum. -/
def DominantSpec (tags : List Nat) (t : Nat) : Prop :=
  t ∈ tags ∧
  (∀ u ∈ tags, tags.count u ≤ tags.count t) ∧
  (∀ u ∈ tags, tags.count u = tags.count t → fidx t tags ≤ fidx u tags)

theorem domTag_spec (tags : List Nat) (h : tags ≠ []) :
    DominantSpec tags (domTag tags) := by
  have hm : tallyFrom [] tags = tallyCanon tags := tally_eq_canon tags
  unfold domTag selectDominant
  rw [hm]
  rcases selectDominant_foldl_charact (tallyCanon tags) (1, 0) with
    ⟨heq, hall⟩ | ⟨m1, e, m2, hsplit, heq, hlt, h1, h2⟩
  · exfalso
    obtain ⟨t0, l0, rfl⟩ := List.exists_cons_of_ne_nil h
    have hmem : (t0, (t0 :: l0).count t0) ∈ tallyCanon (t0 :: l0) := by
      unfold tallyCanon
      exact List.mem_map_of_mem _ (mem_firstOccs.mpr (List.mem_cons_self t0 l0))
    have hle := hall _ hmem
    have h0 : ((1:ℕ), (0:ℕ)).2 = 0 := rfl
    rw [h0] at hle
    have hpos : 0 < (t0 :: l0).count t0 :=
      List.count_pos_iff.mpr (List.mem_cons_self t0 l0)
    simp only at hle
    omega
  · rw [heq]
    have hemem : e ∈ tallyCanon tags := by
      rw [hsplit]
      exact List.mem_append.mpr (Or.inr (List.mem_cons_self e m2))
    obtain ⟨k, hkmem, hke⟩ := List.mem_map.mp hemem
    have hkl : k ∈ tags := mem_firstOccs.mp hkmem
    have he1 : e.1 = k := by rw [← hke]
    have he2 : e.2 = tags.count k := by rw [← hke]
    have hmax : ∀ u ∈ tags, tags.count u ≤ e.2 := by
      intro u hu
      have humem : (u, tags.count u) ∈ tallyCanon tags :=
        List.mem_map_of_mem _ (mem_firstOccs.mpr hu)
      rw [hsplit] at humem
      rcases List.mem_append.mp humem with hin | hin
      · exact le_of_lt (h1 _ hin)
      · rcases List.mem_cons.mp hin with hin | hin
        · exact le_of_eq (congrArg Prod.snd hin)
        · exact h2 _ hin
    refine ⟨?_, ?_, ?_⟩
    · rw [he1]; exact hkl
    · intro u hu
      rw [he1, ← he2]
      exact hmax u hu
    · intro u hu hcnt
      have humem : (u, tags.count u) ∈ tallyCanon tags :=
        List.mem_map_of_mem _ (mem_firstOccs.mpr hu)
      have hpw : (tallyCanon tags).Pairwise
          (fun p q => fidx p.1 tags < fidx q.1 tags) := by
        unfold tallyCanon
        rw [List.pairwise_map]
        exact firstOccs_pairwise_fidx tags
      rw [hsplit] at humem hpw
      rcases List.mem_append.mp humem with hin | hin
      · exfalso
        have hltu := h1 _ hin
        simp only at hltu
        rw [he1] at hcnt
        rw [he2] at hltu
        omega
      · rcases List.mem_cons.mp hin with hin | hin
        · have hue : u = e.1 := congrArg Prod.fst hin
          rw [hue]
        · rcases List.pairwise_append.mp hpw with ⟨-, hpw2, -⟩
          have hlt2 := (List.pairwise_cons.mp hpw2).1 _ hin
          simp only at hlt2
          exact le_of_lt hlt2

theorem computeStart_eq_firstNonzero (l : List ℚ) :
    computeStart l = ((l.find? fun x => decide (x ≠ 0)).getD 0) := by
  have haux : ∀ (l : List ℚ) (a : ℚ), a ≠ 0 →
      l.foldl (fun st x => if st = 0 then x else st) a = a := by
    intro l
    induction l with
    | nil => intro a _; rfl
    | cons x l ih =>
      intro a ha
      show l.foldl _ (if a = 0 then x else a) = a
      rw [if_neg ha]
      exact ih a ha
  induction l with
  | nil => rfl
  | cons x l ih =>
    show l.foldl _ (if (0:ℚ) = 0 then x else 0) = _
    rw [if_pos rfl]
    by_cases hx : x = 0
    · subst hx
      rw [List.find?_cons_of_neg _ (by simp)]
      exact ih
    · rw [haux l x hx, List.find?_cons_of_pos _ (by simpa using hx)]
      rfl

theorem computeEnd_eq_last (l : List ℚ) :
    computeEnd l = (l.getLast?.getD 0) := by
  have haux : ∀ (l : List ℚ) (a : ℚ),
      l.foldl (fun _ x => x) a = l.getLast?.getD a := by
    intro l
    induction l with
    | nil => intro a; rfl
    | cons x l ih =>
      intro a
      show l.foldl _ x = _
      rw [ih x]
      cases hl : l.getLast? with
      | none =>
        have : l = [] := by
          cases l with
          | nil => rfl
          | cons y t => simp [List.getLast?_eq_getLast] at hl
        subst this
        rfl
      | some y =>
        rw [List.getLast?_cons, hl]
        rfl
  exact haux l 0

/-- **C1, amended.**  In both normalizers the emitted dominant speaker tag is
a tag of maximal word count; when several tags attain the maximal count, the
tag whose *first word occurs earliest* in the utterance is chosen (JavaScript
`Map` iteration follows insertion order), not the lowest tag id. -/
theorem dominantSpeaker_majority_firstOccurrence :
    (∀ (d : GData) (r : TranscriptResult), handleStreamData d = some r →
      gWords d ≠ [] → DominantSpec ((gWords d).map effTagG) r.speakerTag) ∧
    (∀ (d : DgData) (r : DgTranscriptResult), handleTranscript d = some r →
      dgWords d ≠ [] → DominantSpec ((dgWords d).map effTagDg) r.speakerTag) := by
  constructor
  · intro d r h hw
    obtain ⟨results⟩ := d
    cases results with
    | nil => simp [handleStreamData] at h
    | cons res rest =>
      obtain ⟨alts, fin⟩ := res
      cases alts with
      | nil => simp [handleStreamData] at h
      | cons alt arest =>
        simp only [handleStreamData, Option.some.injEq] at h
        subst h
        show DominantSpec (alt.words.map effTagG) (domTag (alt.words.map effTagG))
        apply domTag_spec
        simp only [ne_eq, List.map_eq_nil_iff]
        exact hw
  · intro d r h hw
    obtain ⟨alts, fin⟩ := d
    cases alts with
    | nil => simp [handleTranscript] at h
    | cons alt arest =>
      cases htx : alt.transcript with
      | none => simp [handleTranscript, htx] at h
      | some t =>
        by_cases htr : jsTrim t = []
        · simp [handleTranscript, htx, htr] at h
        · simp only [handleTranscript, htx] at h
          rw [if_neg htr] at h
          simp only [Option.some.injEq] at h
          subst h
          show DominantSpec (alt.words.map effTagDg) (domTag (alt.words.map effTagDg))
          apply domTag_spec
          simp only [ne_eq, List.map_eq_nil_iff]
          exact hw

/-- Google payload whose word-level speaker tags are `[2, 1]`: a tie in which
the lower tag id is 1 but tag 2 occurs first. -/
def c1gdata : GData :=
  { results := [
      { alternatives := [
          { transcript := some ['h', 'i']
            confidence := none
            words := [
              { word := some ['h'], speakerTag := some 2,
                startTime := none, endTime := none },
              { word := some ['i'], speakerTag := some 1,
                startTime := none, endTime := none }] }]
        isFinal := some true }] }

/-- Deepgram payload whose effective word tags are `[2, 1]` (raw speakers
`[1, 0]`). -/
def c1dgdata : DgData :=
  { alternatives := [
      { transcript := some ['h', 'i']
        confidence := none
        words := [
          { word := some ['h'], punctuated_word := none, speaker := some 1,
            start := none, stop := none, confidence := none },
          { word := some ['i'], punctuated_word := none, speaker := some 0,
            start := none, stop := none, confidence := none }] }]
    is_final := some true }

/-- **C1, counterexample.**  With word-level tags `[2, 1]` both tags have
count 1, so the claimed tie-break ("the lower tag id is chosen") demands
dominant tag 1; both normalizers emit tag 2 (the tag seen first). -/
theorem dominantSpeaker_tie_counterexample :
    Option.map TranscriptResult.speakerTag (handleStreamData c1gdata) = some 2 ∧
    Option.map DgTranscriptResult.speakerTag (handleTranscript c1dgdata) = some 2 := by
  constructor
  · rfl
  · rfl

/-- The Google canonical event produced from `c1gdata`. -/
def c1gres : TranscriptResult :=
  { transcript := ['h', 'i']
    confidence := 0
    isFinal := true
    speakerTag := 2
    startTime := 0
    endTime := 0
    words := [
      { word := ['h'], speakerTag := 2, startTime := 0, endTime := 0 },
      { word := ['i'], speakerTag := 1, startTime := 0, endTime := 0 }] }

/-- The Deepgram canonical event produced from `c1dgdata`. -/
def c1dgres : DgTranscriptResult :=
  { transcript := ['h', 'i']
    confidence := 0
    isFinal := true
    speakerTag := 2
    startTime := 0
    endTime := 0
    words := [
      { word := ['h'], speakerTag := 2, startTime := 0, endTime := 0, confidence := 0 },
      { word := ['i'], speakerTag := 1, startTime := 0, endTime := 0, confidence := 0 }] }

/-- **C1, witness** for the amended theorem at the concrete payloads. -/
theorem dominantSpeaker_majority_firstOccurrence_witness :
    DominantSpec ((gWords c1gdata).map effTagG) c1gres.speakerTag ∧
    DominantSpec ((dgWords c1dgdata).map effTagDg) c1dgres.speakerTag :=
  ⟨dominantSpeaker_majority_firstOccurrence.1 c1gdata c1gres rfl (by decide),
   dominantSpeaker_majority_firstOccurrence.2 c1dgdata c1dgres rfl (by decide)⟩

/-- **C6, amended.**  For every Google payload that produces an event, the
emitted segment start is the start time of the first word *with a non-zero
start time* (`0` when there is none, in particular for an empty word list) —
not the first word's start time —, and the segment end is the last word's end
time (`0` for an empty word list). -/
theorem segmentTiming_firstNonzeroStart :
    ∀ (d : GData) (r : TranscriptResult), handleStreamData d = some r →
      r.startTime =
        (((gWords d).map fun w => durationToSeconds w.startTime).find?
          (fun x => decide (x ≠ 0))).getD 0 ∧
      r.endTime =
        (((gWords d).map fun w => durationToSeconds w.endTime).getLast?).getD 0 := by
  intro d r h
  obtain ⟨results⟩ := d
  cases results with
  | nil => simp [handleStreamData] at h
  | cons res rest =>
    obtain ⟨alts, fin⟩ := res
    cases alts with
    | nil => simp [handleStreamData] at h
    | cons alt arest =>
      simp only [handleStreamData, Option.some.injEq] at h
      subst h
      constructor
      · exact computeStart_eq_firstNonzero _
      · exact computeEnd_eq_last _

/-- First word starts at 0 seconds, second at 5 seconds. -/
def c6data : GData :=
  { results := [
      { alternatives := [
          { transcript := some ['a', 'b']
            confidence := none
            words := [
              { word := some ['a'], speakerTag := some 1,
                startTime := some ⟨some 0, some 0⟩, endTime := some ⟨some 1, some 0⟩ },
              { word := some ['b'], speakerTag := some 1,
                startTime := some ⟨some 5, some 0⟩, endTime := some ⟨some 6, some 0⟩ }] }]
        isFinal := some true }] }

/-- **C6, counterexample.**  The first word of `c6data` has start time 0 and
the second word has start time 5.  The claim says the segment start equals
the first word's start time (0) also in this case; the code skips the zero
start (`if (startTime === 0)`) and emits 5. -/
theorem segmentStart_zero_counterexample :
    Option.map TranscriptResult.startTime (handleStreamData c6data) = some 5 ∧
    durationToSeconds (some ⟨some 0, some 0⟩) = 0 ∧ (5 : ℚ) ≠ 0 := by
  refine ⟨?_, by norm_num [durationToSeconds], by norm_num⟩
  show some (computeStart
    ((gWords c6data).map fun w => durationToSeconds w.startTime)) = some 5
  have h1 : (gWords c6data).map (fun w => durationToSeconds w.startTime) =
      [(0 : ℚ) + 0 / 1000000000, (5 : ℚ) + 0 / 1000000000] := rfl
  rw [h1]
  unfold computeStart
  norm_num

/-- Payload with an empty word list. -/
def c6empty : GData :=
  { results := [
      { alternatives := [
          { transcript := some ['a'], confidence := none, words := [] }]
        isFinal := some true }] }

/-- Event produced from `c6empty`. -/
def c6emptyRes : TranscriptResult :=
  { transcript := ['a'], confidence := 0, isFinal := true,
    speakerTag := 1, startTime := 0, endTime := 0, words := [] }

/-- **C6, witness** for the amended theorem on a concrete payload. -/
theorem segmentTiming_firstNonzeroStart_witness :
    c6emptyRes.startTime =
      (((gWords c6empty).map fun w => durationToSeconds w.startTime).find?
        (fun x => decide (x ≠ 0))).getD 0 ∧
    c6emptyRes.endTime =
      (((gWords c6empty).map fun w => durationToSeconds w.endTime).getLast?).getD 0 :=
  segmentTiming_firstNonzeroStart c6empty c6emptyRes rfl

/-!
## Google streaming session: `writeAudio` / `restartStream`
(`google-speech.service.ts` lines 243–304)

The session state is the mutable record used by the service.  A stream is
modelled by its two writability flags and the list of audio frames written
to it.  Wall-clock time (`Date.now()`) is a parameter of `writeAudio`.
The asynchronous re-creation of the stream (`setTimeout` callback calling
`createRecognizeStream`) is a separate transition, not part of the
synchronous `writeAudio`/`restartStream` call.
-/

/-- A provider recognize stream. -/
structure GStream where
  destroyed : Bool
  writableEnded : Bool
  written : List Nat
deriving DecidableEq

/-- The per-session state of the Google speech service. -/
structure GSession where
  recognizeStream : Option GStream
  isActive : Bool
  restartCount : Nat
  audioInputStreamTimestamp : Int
deriving DecidableEq

/-- `streamingLimit = 290000` milliseconds. -/
def streamingLimit : Int := 290000

/-- Shallow embedding of `restartStream` (lines 243–269): the synchronous
part ends and clears the stream; the delayed `createRecognizeStream` is the
separate `createRecognizeStream` transition below. -/
def restartStream (s : GSession) : GSession :=
  if !s.isActive then s
  else
    { s with
      restartCount := s.restartCount + 1
      isActive := false
      recognizeStream := none }

/-- The delayed `createRecognizeStream` (lines 118–161): opens a fresh
stream, sets `isActive` and resets the stream timestamp. -/
def createRecognizeStream (s : GSession) (now : Int) : GSession :=
  { s with
    recognizeStream := some { destroyed := false, writableEnded := false, written := [] }
    isActive := true
    audioInputStreamTimestamp := now }

/-- Shallow embedding of `writeAudio` (lines 271–304) for a session looked up
from the session map (`none` models a missing session).  Returns the boolean
result and the updated session.  The `try/catch` around `write` is modelled
as the successful write (stream errors are separate events). -/
def writeAudio (sess : Option GSession) (now : Int) (frame : Nat) :
    Bool × Option GSession :=
  match sess with
  | none => (false, none)
  | some s =>
    match s.recognizeStream with
    | none => (false, some s)
    | some st =>
      if !s.isActive then (false, some s)
      else if st.destroyed || st.writableEnded then (false, some s)
      else if streamingLimit < now - s.audioInputStreamTimestamp then
        (true, some (restartStream s))
      else
        let st2 : GStream := { st with written := st.written ++ [frame] }
        (true, some { s with recognizeStream := some st2 })

/-- **C10.**  For a session in the streaming state (active, with an open
writable stream), a `writeAudio` call arriving after the elapsed stream time
exceeds the 290-second limit returns `true`, writes the frame to no stream
(the stream is discarded), clears `isActive` and increments the restart
count; and every `writeAudio` call on a session whose `isActive` is cleared
returns `false` and leaves the session unchanged, writing nothing. -/
theorem writeAudio_streamingLimit_restart :
    (∀ (s : GSession) (st : GStream) (now : Int) (frame : Nat),
      s.recognizeStream = some st → s.isActive = true →
      st.destroyed = false → st.writableEnded = false →
      streamingLimit < now - s.audioInputStreamTimestamp →
      writeAudio (some s) now frame =
        (true, some { s with
          restartCount := s.restartCount + 1
          isActive := false
          recognizeStream := none })) ∧
    (∀ (s : GSession) (now : Int) (frame : Nat),
      s.isActive = false →
      writeAudio (some s) now frame = (false, some s)) := by
  constructor
  · intro s st now frame hst hact hdes hend hlim
    simp only [writeAudio]
    rw [hst]
    simp only [hact, hdes, hend, Bool.not_true, Bool.or_self]
    rw [if_neg (by simp)]
    rw [if_neg (by simp)]
    rw [if_pos hlim]
    unfold restartStream
    rw [hact]
    simp
  · intro s now frame hact
    simp only [writeAudio]
    cases hst : s.recognizeStream with
    | none => rfl
    | some st =>
      simp only [hact, Bool.not_false]
      simp

/-- A session that exceeded the streaming limit. -/
def c10sess : GSession :=
  { recognizeStream := some { destroyed := false, writableEnded := false, written := [] }
    isActive := true
    restartCount := 0
    audioInputStreamTimestamp := 0 }

/-- **C10, witness**: applying the theorem at a concrete session and clock
(elapsed 290001 ms > 290000 ms), and at a concrete inactive session. -/
theorem writeAudio_streamingLimit_restart_witness :
    writeAudio (some c10sess) 290001 7 =
      (true, some { c10sess with
        restartCount := 1, isActive := false, recognizeStream := none }) ∧
    writeAudio (some { c10sess with isActive := false }) 290002 8 =
      (false, some { c10sess with isActive := false }) :=
  ⟨writeAudio_streamingLimit_restart.1 c10sess
      { destroyed := false, writableEnded := false, written := [] }
      290001 7 rfl rfl rfl rfl (by norm_num [streamingLimit, c10sess]),
   writeAudio_streamingLimit_restart.2 { c10sess with isActive := false } 290002 8 rfl⟩

/-!
## Batch diarization reconciler
(`batch-diarization.service.ts`, `assignSpeakersAndMergeSegments`
lines 240–337, `mergeConsecutiveSpeakerSegments` lines 343–367,
`processAudioFile` lines 78–213)

Speaker labels are modelled as `List Char`; `[...new Set(xs)]` keeps first
occurrences, `Array.prototype.sort()` sorts lexicographically by code
units.
-/

/-- A pyannote diarization span (`PyannoteSegment`). -/
structure PSpan where
  speaker : List Char
  start : ℚ
  stop : ℚ
deriving DecidableEq

/-- A persisted transcript segment (the fields the reconciler uses). -/
structure TSeg where
  speakerTag : Nat
  transcript : List Char
  startTime : ℚ
  endTime : ℚ
  confidence : ℚ
deriving DecidableEq

/-- `[...new Set(l)]`: distinct elements, first occurrences first. -/
def setDedup : List (List Char) → List (List Char)
  | [] => []
  | x :: l => x :: (setDedup l).filter (fun u => u ≠ x)

/-- The label `'SPEAKER_00'`. -/
def spk00 : List Char := ['S', 'P', 'E', 'A', 'K', 'E', 'R', '_', '0', '0']

/-- `uniqueSpeakers`: distinct labels sorted lexicographically
(`[...new Set(pyannoteSpeakers.map(s => s.speaker))].sort()`). -/
def uniqueSpeakers (spans : List PSpan) : List (List Char) :=
  (setDedup (spans.map PSpan.speaker)).insertionSort (· ≤ ·)

/-- `speakerMap`: `uniqueSpeakers.forEach((speaker, index) =>
speakerMap.set(speaker, index + 1))`. -/
def buildSpeakerMap : List (List Char) → Nat → List (List Char × Nat)
  | [], _ => []
  | l :: rest, i => (l, i + 1) :: buildSpeakerMap rest (i + 1)

/-- `Map.get` on the association list. -/
def mapGet : List (List Char × Nat) → List Char → Option Nat
  | [], _ => none
  | (k, v) :: rest, l => if k = l then some v else mapGet rest l

/-- The loop `for (const ps of pyannoteSpeakers) { if (ps.start <= mid &&
mid <= ps.end) { assignedSpeaker = ps.speaker; break } }` with initial value
`'SPEAKER_00'`. -/
def findLabel : List PSpan → ℚ → List Char
  | [], _ => spk00
  | ps :: rest, mid =>
    if ps.start ≤ mid ∧ mid ≤ ps.stop then ps.speaker else findLabel rest mid

/-- `speakerMap.get(assignedSpeaker) || 1` (`undefined` and `0` are falsy). -/
def jsOrOne : Option Nat → Nat
  | none => 1
  | some v => if v = 0 then 1 else v

/-- The speaker tag assigned to one segment
(`assignSpeakersAndMergeSegments`, lines 254–272). -/
def assignTag (spans : List PSpan) (seg : TSeg) : Nat :=
  let mid := (seg.startTime + seg.endTime) / 2
  jsOrOne (mapGet (buildSpeakerMap (uniqueSpeakers spans) 0) (findLabel spans mid))

/-- `segmentsWithSpeakers`: every segment reassigned by midpoint. -/
def assignSpeakers (spans : List PSpan) (segs : List TSeg) : List TSeg :=
  segs.map fun seg => { seg with speakerTag := assignTag spans seg }

/-- The merge loop of `assignSpeakersAndMergeSegments` (lines 283–315):
`current` starts `null`; a segment with the same tag is folded into
`current` (text concatenated with one space, `endTime` extended,
`confidence` set to the minimum), otherwise `current` is pushed. -/
def mergeLoop : Option TSeg → List TSeg → List TSeg
  | none, [] => []
  | some cur, [] => [cur]
  | none, seg :: rest => mergeLoop (some seg) rest
  | some cur, seg :: rest =>
    if seg.speakerTag = cur.speakerTag then
      mergeLoop (some { cur with
        transcript := cur.transcript ++ [' '] ++ seg.transcript
        endTime := seg.endTime
        confidence := min cur.confidence seg.confidence }) rest
    else
      cur :: mergeLoop (some seg) rest

/-- The merged segment list computed by `assignSpeakersAndMergeSegments`
before persistence. -/
def assignSpeakersAndMergeSegments (spans : List PSpan) (segs : List TSeg) :
    List TSeg :=
  mergeLoop none (assignSpeakers spans segs)

/-- A `DiarizedSegment` of the no-live-segments batch path (`confidence` is
optional there). -/
structure DSeg where
  speakerTag : Nat
  speaker : List Char
  transcript : List Char
  startTime : ℚ
  endTime : ℚ
  confidence : Option ℚ
deriving DecidableEq

/-- The merge loop of `mergeConsecutiveSpeakerSegments` (lines 343–367):
same text/endTime rule, `confidence` untouched (the first segment's value
is kept). -/
def mergeConsecutiveLoop : DSeg → List DSeg → List DSeg
  | cur, [] => [cur]
  | cur, seg :: rest =>
    if seg.speakerTag = cur.speakerTag then
      mergeConsecutiveLoop { cur with
        transcript := cur.transcript ++ [' '] ++ seg.transcript
        endTime := seg.endTime } rest
    else
      cur :: mergeConsecutiveLoop seg rest

/-- Shallow embedding of `mergeConsecutiveSpeakerSegments`. -/
def mergeConsecutiveSpeakerSegments : List DSeg → List DSeg
  | [] => []
  | seg :: rest => mergeConsecutiveLoop seg rest

theorem mem_setDedup {l : List (List Char)} {x : List Char} :
    x ∈ setDedup l ↔ x ∈ l := by
  induction l with
  | nil => simp [setDedup]
  | cons a l ih =>
    show x ∈ a :: (setDedup l).filter (fun u => u ≠ a) ↔ _
    constructor
    · intro h
      rcases List.mem_cons.mp h with h | h
      · exact h ▸ List.mem_cons_self a l
      · exact List.mem_cons_of_mem a (ih.mp (List.mem_filter.mp h).1)
    · intro h
      by_cases hx : x = a
      · exact hx ▸ List.mem_cons_self a _
      · rcases List.mem_cons.mp h with h | h
        · exact absurd h hx
        · exact List.mem_cons_of_mem a
            (List.mem_filter.mpr ⟨ih.mpr h, by simpa using hx⟩)

theorem setDedup_nodup (l : List (List Char)) : (setDedup l).Nodup := by
  induction l with
  | nil => simp [setDedup]
  | cons a l ih =>
    show (a :: (setDedup l).filter (fun u => u ≠ a)).Nodup
    refine List.Nodup.cons ?_ (ih.filter _)
    intro hmem
    rcases List.mem_filter.mp hmem with ⟨-, hne⟩
    simp at hne

theorem uniqueSpeakers_pairwise_lt (spans : List PSpan) :
    (uniqueSpeakers spans).Pairwise (· < ·) := by
  have hsorted : (uniqueSpeakers spans).Sorted (· ≤ ·) :=
    List.sorted_insertionSort _ _
  have hperm : (uniqueSpeakers spans).Perm (setDedup (spans.map PSpan.speaker)) :=
    List.perm_insertionSort _ _
  have hnodup : (uniqueSpeakers spans).Nodup :=
    hperm.nodup_iff.mpr (setDedup_nodup _)
  have hboth := List.Pairwise.and hsorted hnodup
  exact hboth.imp fun hab => lt_of_le_of_ne hab.1 hab.2

theorem mem_uniqueSpeakers {spans : List PSpan} {l : List Char} :
    l ∈ uniqueSpeakers spans ↔ l ∈ spans.map PSpan.speaker := by
  constructor
  · intro h
    exact mem_setDedup.mp ((List.perm_insertionSort _ _).mem_iff.mp h)
  · intro h
    exact (List.perm_insertionSort _ _).mem_iff.mpr (mem_setDedup.mpr h)

theorem mapGet_buildSpeakerMap_mem {S : List (List Char)}
    (hpw : S.Pairwise (· < ·)) {l : List Char} (hl : l ∈ S) (i : Nat) :
    mapGet (buildSpeakerMap S i) l =
      some (S.countP (fun x => decide (x < l)) + i + 1) := by
  induction S generalizing i with
  | nil => cases hl
  | cons a S ih =>
    rcases List.pairwise_cons.mp hpw with ⟨halt, hpw2⟩
    by_cases hla : l = a
    · subst hla
      show (if l = l then some (i + 1) else _) = _
      rw [if_pos rfl]
      have hz : S.countP (fun x => decide (x < l)) = 0 := by
        rw [List.countP_eq_zero]
        intro x hx
        have := halt x hx
        simp only [decide_eq_true_eq]
        exact asymm this
      rw [List.countP_cons]
      simp [hz]
    · show (if a = l then some (i + 1) else mapGet (buildSpeakerMap S (i + 1)) l) = _
      rw [if_neg (fun h => hla h.symm)]
      rcases List.mem_cons.mp hl with h | h
      · exact absurd h hla
      · rw [ih hpw2 h (i + 1)]
        have hal : a < l := halt l h
        rw [List.countP_cons]
        simp only [decide_eq_true_eq, hal, if_true]
        congr 1
        omega

theorem mapGet_buildSpeakerMap_not_mem {S : List (List Char)} {l : List Char}
    (hl : l ∉ S) (i : Nat) : mapGet (buildSpeakerMap S i) l = none := by
  induction S generalizing i with
  | nil => rfl
  | cons a S ih =>
    show (if a = l then some (i + 1) else mapGet (buildSpeakerMap S (i + 1)) l) = _
    rw [if_neg (fun h => hl (by rw [← h]; exact List.mem_cons_self a S))]
    exact ih (fun h => hl (List.mem_cons_of_mem a h)) (i + 1)

theorem findLabel_eq_find? (spans : List PSpan) (mid : ℚ) :
    findLabel spans mid =
      match spans.find? (fun ps => decide (ps.start ≤ mid) && decide (mid ≤ ps.stop)) with
      | some ps => ps.speaker
      | none => spk00 := by
  induction spans with
  | nil => rfl
  | cons ps rest ih =>
    show (if ps.start ≤ mid ∧ mid ≤ ps.stop then ps.speaker else findLabel rest mid) = _
    by_cases h : ps.start ≤ mid ∧ mid ≤ ps.stop
    · rw [if_pos h, List.find?_cons_of_pos _ (by simp [h.1, h.2])]
    · rw [if_neg h, List.find?_cons_of_neg _ (by
        simp only [Bool.and_eq_true, decide_eq_true_eq, not_and]
        intro h1 h2
        exact h ⟨h1, h2⟩), ih]

/-- Number of distinct span labels lexicographically below `l`. -/
def rankLt (spans : List PSpan) (l : List Char) : Nat :=
  (setDedup (spans.map PSpan.speaker)).countP (fun x => decide (x < l))

theorem countP_uniqueSpeakers (spans : List PSpan) (l : List Char) :
    (uniqueSpeakers spans).countP (fun x => decide (x < l)) = rankLt spans l :=
  (List.perm_insertionSort _ _).countP_eq _

/-- **C2, amended.**  The reconciler assigns: tag = 1 + (number of distinct
labels lexicographically below the chosen label), where the chosen label is
the first span (in given order) whose `[start, stop]` interval contains the
segment midpoint; a segment whose midpoint lies in no span falls back to the
literal label `'SPEAKER_00'` — so it gets `'SPEAKER_00'`'s tag when some span
carries that label, and tag 1 only otherwise. -/
theorem assignTag_characterisation :
    ∀ (spans : List PSpan) (seg : TSeg),
      assignTag spans seg =
        match spans.find? (fun ps =>
            decide (ps.start ≤ (seg.startTime + seg.endTime) / 2) &&
            decide ((seg.startTime + seg.endTime) / 2 ≤ ps.stop)) with
        | some ps => rankLt spans ps.speaker + 1
        | none =>
          if spk00 ∈ spans.map PSpan.speaker then rankLt spans spk00 + 1 else 1 := by
  intro spans seg
  unfold assignTag
  show jsOrOne (mapGet (buildSpeakerMap (uniqueSpeakers spans) 0)
    (findLabel spans ((seg.startTime + seg.endTime) / 2))) = _
  rw [findLabel_eq_find?]
  cases hf : spans.find? (fun ps =>
      decide (ps.start ≤ (seg.startTime + seg.endTime) / 2) &&
      decide ((seg.startTime + seg.endTime) / 2 ≤ ps.stop)) with
  | some ps =>
    have hmem : ps ∈ spans := List.mem_of_find?_eq_some hf
    have hlbl : ps.speaker ∈ uniqueSpeakers spans :=
      mem_uniqueSpeakers.mpr (List.mem_map_of_mem _ hmem)
    rw [mapGet_buildSpeakerMap_mem (uniqueSpeakers_pairwise_lt spans) hlbl 0,
      countP_uniqueSpeakers]
    simp [jsOrOne]
  | none =>
    by_cases hs : spk00 ∈ spans.map PSpan.speaker
    · rw [if_pos hs]
      have hlbl : spk00 ∈ uniqueSpeakers spans := mem_uniqueSpeakers.mpr hs
      rw [mapGet_buildSpeakerMap_mem (uniqueSpeakers_pairwise_lt spans) hlbl 0,
        countP_uniqueSpeakers]
      simp [jsOrOne]
    · rw [if_neg hs]
      have hlbl : spk00 ∉ uniqueSpeakers spans := fun h => hs (mem_uniqueSpeakers.mp h)
      rw [mapGet_buildSpeakerMap_not_mem hlbl 0]
      rfl

/-- Spans whose labels are `ALICE` and `SPEAKER_00`. -/
def c2spans : List PSpan :=
  [{ speaker := ['A', 'L', 'I', 'C', 'E'], start := 0, stop := 1 },
   { speaker := spk00, start := 2, stop := 3 }]

/-- A segment whose midpoint (9) lies in no span of `c2spans`. -/
def c2seg : TSeg :=
  { speakerTag := 1, transcript := ['x'], startTime := 8, endTime := 10,
    confidence := 1 }

/-- **C2, counterexample.**  `c2seg`'s midpoint 9 lies in no span, yet the
assigned tag is 2, not the claimed default 1: the fallback label is the
literal `'SPEAKER_00'`, which here is an actual span label sorted after
`'ALICE'` and therefore mapped to tag 2. -/
theorem assignTag_default_counterexample :
    assignTag c2spans c2seg = 2 ∧
    (c2seg.startTime + c2seg.endTime) / 2 = (9 : ℚ) ∧
    (∀ ps ∈ c2spans, ¬ (ps.start ≤ 9 ∧ (9 : ℚ) ≤ ps.stop)) := by
  refine ⟨?_, by norm_num [c2seg], by decide⟩
  unfold assignTag
  show jsOrOne (mapGet (buildSpeakerMap (uniqueSpeakers c2spans) 0)
    (findLabel c2spans ((c2seg.startTime + c2seg.endTime) / 2))) = 2
  rw [show (c2seg.startTime + c2seg.endTime) / 2 = (9 : ℚ) by norm_num [c2seg]]
  rw [show findLabel c2spans 9 = spk00 by norm_num [c2spans, findLabel]]
  rfl

/-- **C3, amended.**  Merging two temporally adjacent same-tag segments
concatenates the texts with one space and extends `endTime` to the later
segment's `endTime` in *both* paths, but only the post-diarization merge sets
the merged confidence to the minimum; the no-live-segments batch path keeps
the *first* segment's confidence unchanged. -/
theorem adjacentMerge_rules
    (a b : TSeg) (h : b.speakerTag = a.speakerTag)
    (a2 b2 : DSeg) (h2 : b2.speakerTag = a2.speakerTag) :
    mergeLoop none [a, b] =
      [{ a with
          transcript := a.transcript ++ [' '] ++ b.transcript
          endTime := b.endTime
          confidence := min a.confidence b.confidence }] ∧
    mergeConsecutiveSpeakerSegments [a2, b2] =
      [{ a2 with
          transcript := a2.transcript ++ [' '] ++ b2.transcript
          endTime := b2.endTime }] := by
  constructor
  · show mergeLoop (some a) [b] = _
    show (if b.speakerTag = a.speakerTag then _ else _) = _
    rw [if_pos h]
    rfl
  · show mergeConsecutiveLoop a2 [b2] = _
    show (if b2.speakerTag = a2.speakerTag then _ else _) = _
    rw [if_pos h2]
    rfl

/-- First batch-path segment, confidence 0.9. -/
def c3a : DSeg :=
  { speakerTag := 1, speaker := spk00, transcript := ['a'],
    startTime := 0, endTime := 1, confidence := some (9 / 10) }

/-- Second batch-path segment, same tag, confidence 0.4. -/
def c3b : DSeg :=
  { speakerTag := 1, speaker := spk00, transcript := ['b'],
    startTime := 1, endTime := 2, confidence := some (2 / 5) }

/-- **C3, counterexample.**  In the no-live-segments batch path the merge of
confidences 0.9 and 0.4 keeps 0.9 (the first segment's value); the claim
demands the minimum 0.4 in both paths. -/
theorem batchMerge_confidence_counterexample :
    (mergeConsecutiveSpeakerSegments [c3a, c3b]).map DSeg.confidence =
      [some (9 / 10)] ∧
    min ((9 : ℚ) / 10) (2 / 5) = 2 / 5 ∧ ((9 : ℚ) / 10) ≠ 2 / 5 := by
  refine ⟨rfl, by norm_num, by norm_num⟩

/-- **C3, witness** for the amended theorem at concrete segments. -/
theorem adjacentMerge_rules_witness :
    mergeLoop none
        [{ speakerTag := 3, transcript := ['x'], startTime := 0, endTime := 1,
           confidence := 1 },
         { speakerTag := 3, transcript := ['y'], startTime := 1, endTime := 2,
           confidence := 1 }] =
      [{ speakerTag := 3, transcript := ['x', ' ', 'y'], startTime := 0,
         endTime := 2, confidence := min 1 1 }] ∧
    mergeConsecutiveSpeakerSegments [c3a, c3b] =
      [{ c3a with transcript := ['a', ' ', 'b'], endTime := c3b.endTime }] := by
  have h := adjacentMerge_rules
    { speakerTag := 3, transcript := ['x'], startTime := 0, endTime := 1,
      confidence := 1 }
    { speakerTag := 3, transcript := ['y'], startTime := 1, endTime := 2,
      confidence := 1 }
    rfl c3a c3b rfl
  exact ⟨h.1, h.2⟩

theorem mergeLoop_cons_decomp (l : List TSeg) (cur : TSeg) :
    ∃ h t, mergeLoop (some cur) l = h :: t ∧ h.speakerTag = cur.speakerTag := by
  induction l generalizing cur with
  | nil => exact ⟨cur, [], rfl, rfl⟩
  | cons seg rest ih =>
    simp only [mergeLoop]
    by_cases hs : seg.speakerTag = cur.speakerTag
    · rw [if_pos hs]
      exact ih _
    · rw [if_neg hs]
      exact ⟨cur, _, rfl, rfl⟩

theorem mergeLoop_chain (l : List TSeg) (cur : TSeg) :
    List.Chain' (fun a b => a.speakerTag ≠ b.speakerTag) (mergeLoop (some cur) l) := by
  induction l generalizing cur with
  | nil => simp [mergeLoop]
  | cons seg rest ih =>
    simp only [mergeLoop]
    by_cases hs : seg.speakerTag = cur.speakerTag
    · rw [if_pos hs]
      exact ih _
    · rw [if_neg hs]
      obtain ⟨h, t, heq, htag⟩ := mergeLoop_cons_decomp rest seg
      rw [heq]
      refine List.Chain'.cons ?_ (heq ▸ ih seg)
      rw [htag]
      exact fun hc => hs hc.symm

theorem mergeLoop_starts_sublist (l : List TSeg) (cur : TSeg) :
    List.Sublist ((mergeLoop (some cur) l).map TSeg.startTime)
      (cur.startTime :: l.map TSeg.startTime) := by
  induction l generalizing cur with
  | nil => simp [mergeLoop]
  | cons seg rest ih =>
    simp only [mergeLoop]
    by_cases hs : seg.speakerTag = cur.speakerTag
    · rw [if_pos hs]
      refine (ih _).trans ?_
      show List.Sublist (cur.startTime :: rest.map TSeg.startTime)
        (cur.startTime :: (seg.startTime :: rest.map TSeg.startTime))
      exact List.Sublist.cons₂ _ (List.sublist_cons_self _ _)
    · rw [if_neg hs]
      simp only [List.map_cons]
      exact List.Sublist.cons₂ _ (ih seg)

/-- **C5.**  For every span set and segment list, the reconciliation merge
yields a list with no two adjacent segments sharing a `speakerTag`, and it
preserves the original order: the output start times form a sublist of the
input start times. -/
theorem reconciliationMerge_output_invariants :
    ∀ (spans : List PSpan) (segs : List TSeg),
      List.Chain' (fun a b => a.speakerTag ≠ b.speakerTag)
        (assignSpeakersAndMergeSegments spans segs) ∧
      List.Sublist ((assignSpeakersAndMergeSegments spans segs).map TSeg.startTime)
        (segs.map TSeg.startTime) := by
  intro spans segs
  have hmap : (assignSpeakers spans segs).map TSeg.startTime
      = segs.map TSeg.startTime := by
    unfold assignSpeakers
    rw [List.map_map]
    rfl
  unfold assignSpeakersAndMergeSegments
  cases hsegs : assignSpeakers spans segs with
  | nil =>
    constructor
    · simp [mergeLoop]
    · show List.Sublist (([] : List TSeg).map TSeg.startTime) _
      simp
  | cons a rest =>
    constructor
    · show List.Chain' _ (mergeLoop (some a) rest)
      exact mergeLoop_chain rest a
    · show List.Sublist ((mergeLoop (some a) rest).map TSeg.startTime)
        (segs.map TSeg.startTime)
      rw [← hmap, hsegs, List.map_cons]
      exact mergeLoop_starts_sublist rest a

/-!
## Persistence of the merged list (`assignSpeakersAndMergeSegments`
lines 319–337 and the control flow of `processAudioFile` lines 90–132, 199–213)

The segment store is the list of persisted segments.  `failAt` injects a
persistence failure: operation 0 is `segmentRepository.delete`, operation
`k + 1` is the save of the `k`-th merged segment.  An exception thrown by
one of these operations aborts the remaining writes; inside
`processAudioFile` it is caught by the `catch (diarError)` handler that
wraps the diarization step, after which the function proceeds to
summarization and sets the meeting status to `'completed'`.
-/

/-- The insert loop (`for (const segment of mergedSegments) { ... await
this.segmentRepository.save(newSegment); }`). -/
def insertLoop (db pending : List TSeg) (opIdx : Nat) (failAt : Option Nat) :
    Bool × List TSeg :=
  match pending with
  | [] => (true, db)
  | s :: rest =>
    if failAt = some opIdx then (false, db)
    else insertLoop (db ++ [s]) rest (opIdx + 1) failAt

/-- Delete-then-insert persistence of the merged list. -/
def runPersist (original merged : List TSeg) (failAt : Option Nat) :
    Bool × List TSeg :=
  if failAt = some 0 then (false, original)
  else insertLoop [] merged 1 failAt

/-- The live-segments branch of `processAudioFile`: diarization available and
reachable, reassignment and merge, persistence (possibly failing at
`failAt`), error swallowed by the `catch (diarError)` handler, then the
meeting is marked `'completed'`.  Returns the final meeting status and the
persisted segment list. -/
def processLiveBranch (original : List TSeg) (spans : List PSpan)
    (diarAvailable diarOk : Bool) (failAt : Option Nat) :
    String × List TSeg :=
  if diarAvailable then
    if diarOk then
      let merged := assignSpeakersAndMergeSegments spans original
      let db := (runPersist original merged failAt).2
      ("completed", db)
    else ("completed", original)
  else ("completed", original)

theorem insertLoop_take (pending : List TSeg) (db : List TSeg) (i : Nat)
    (failAt : Option Nat) :
    ∃ k, (insertLoop db pending i failAt).2 = db ++ pending.take k := by
  induction pending generalizing db i with
  | nil => exact ⟨0, by simp [insertLoop]⟩
  | cons s rest ih =>
    simp only [insertLoop]
    by_cases hf : failAt = some i
    · rw [if_pos hf]
      exact ⟨0, by simp⟩
    · rw [if_neg hf]
      obtain ⟨k, hk⟩ := ih (db ++ [s]) (i + 1)
      refine ⟨k + 1, ?_⟩
      rw [hk, List.take_succ_cons, List.append_assoc]
      rfl

/-- **C4, amended.**  A persistence failure while the reconciler writes the
merged list does *not* abort the post-processing job: the exception is
caught by the surrounding diarization `catch`, the meeting status still
becomes `'completed'`, and the persisted segments are whatever prefix of the
merged list was written before the failure (the original list only when the
initial delete itself failed) — replacement is delete-then-insert without a
transaction and can be left partially applied. -/
theorem reconciliationPersistenceFailure_swallowed :
    ∀ (original : List TSeg) (spans : List PSpan) (failAt : Option Nat),
      (processLiveBranch original spans true true failAt).1 = "completed" ∧
      ((processLiveBranch original spans true true failAt).2 = original ∨
        ∃ k, (processLiveBranch original spans true true failAt).2 =
          (assignSpeakersAndMergeSegments spans original).take k) := by
  intro original spans failAt
  refine ⟨rfl, ?_⟩
  show (runPersist original (assignSpeakersAndMergeSegments spans original) failAt).2
      = original ∨ _
  unfold runPersist
  by_cases hf : failAt = some 0
  · rw [if_pos hf]
    exact Or.inl rfl
  · rw [if_neg hf]
    obtain ⟨k, hk⟩ := insertLoop_take (assignSpeakersAndMergeSegments spans original)
      [] 1 failAt
    refine Or.inr ⟨k, ?_⟩
    show (runPersist original (assignSpeakersAndMergeSegments spans original) failAt).2 = _
    unfold runPersist
    rw [if_neg hf]
    simpa using hk

/-- Two live segments with distinct provider tags. -/
def c4orig : List TSeg :=
  [{ speakerTag := 1, transcript := ['a'], startTime := 0, endTime := 1,
     confidence := 1 },
   { speakerTag := 2, transcript := ['b'], startTime := 1, endTime := 2,
     confidence := 1 }]

/-- **C4, counterexample.**  With no diarization spans both segments are
remapped to tag 1 and merged into one segment; failing the first insert
(operation 1, after the delete succeeded) leaves the store *empty* — neither
the original list nor the merged list — while the job completes and the
meeting status becomes `'completed'`, not `'failed'`. -/
theorem persistenceFailure_counterexample :
    processLiveBranch c4orig [] true true (some 1) = ("completed", []) ∧
    c4orig ≠ [] ∧ assignSpeakersAndMergeSegments [] c4orig ≠ [] := by
  refine ⟨rfl, by decide, ?_⟩
  obtain ⟨h, t, heq, -⟩ := mergeLoop_cons_decomp
    ((assignSpeakers [] c4orig).tail)
    ((assignSpeakers [] c4orig).head (by decide))
  intro hcon
  rw [show assignSpeakersAndMergeSegments [] c4orig =
    mergeLoop (some ((assignSpeakers [] c4orig).head (by decide)))
      ((assignSpeakers [] c4orig).tail) from rfl] at hcon
  rw [heq] at hcon
  cases hcon

/-!
## Name extractor (src/backend/src/utils/name-extractor.ts)

The regular expressions are embedded as explicit backtracking matchers over
`List Char`, following ECMAScript semantics: leftmost match, alternatives in
source order, greedy quantifiers with backtracking, `\b` boundaries from the
`\w` class.  The inputs are single-line utterance transcripts (`.` never has
to skip a line terminator).  Object-literal tables are association lists in
property order.
-/

/-- `PHONETIC_ALPHABET` (lines 11–67), in property order. -/
def phoneticAlphabet : List (List Char × Char) :=
  [("alpha".data, 'A'), ("alfa".data, 'A'),
   ("bravo".data, 'B'),
   ("charlie".data, 'C'),
   ("delta".data, 'D'),
   ("echo".data, 'E'),
   ("foxtrot".data, 'F'),
   ("golf".data, 'G'),
   ("hotel".data, 'H'),
   ("india".data, 'I'),
   ("juliet".data, 'J'), ("juliett".data, 'J'),
   ("kilo".data, 'K'),
   ("lima".data, 'L'),
   ("mike".data, 'M'),
   ("november".data, 'N'),
   ("oscar".data, 'O'),
   ("papa".data, 'P'),
   ("quebec".data, 'Q'),
   ("romeo".data, 'R'),
   ("sierra".data, 'S'),
   ("tango".data, 'T'),
   ("uniform".data, 'U'),
   ("victor".data, 'V'),
   ("whiskey".data, 'W'), ("whisky".data, 'W'),
   ("xray".data, 'X'), ("x-ray".data, 'X'),
   ("yankee".data, 'Y'),
   ("zulu".data, 'Z'),
   ("apple".data, 'A'), ("adam".data, 'A'), ("able".data, 'A'),
   ("boy".data, 'B'), ("baker".data, 'B'), ("bob".data, 'B'),
   ("cat".data, 'C'), ("carol".data, 'C'),
   ("dog".data, 'D'), ("david".data, 'D'),
   ("edward".data, 'E'), ("easy".data, 'E'), ("egg".data, 'E'),
   ("frank".data, 'F'), ("fox".data, 'F'), ("freddy".data, 'F'),
   ("george".data, 'G'), ("girl".data, 'G'),
   ("henry".data, 'H'), ("harry".data, 'H'), ("how".data, 'H'),
   ("ida".data, 'I'), ("item".data, 'I'), ("ice".data, 'I'),
   ("john".data, 'J'), ("jack".data, 'J'), ("james".data, 'J'),
   ("king".data, 'K'), ("kate".data, 'K'), ("kevin".data, 'K'),
   ("larry".data, 'L'), ("love".data, 'L'), ("london".data, 'L'),
   ("mary".data, 'M'), ("mother".data, 'M'), ("michael".data, 'M'),
   ("nancy".data, 'N'), ("nora".data, 'N'), ("nick".data, 'N'),
   ("ocean".data, 'O'), ("oliver".data, 'O'), ("orange".data, 'O'),
   ("peter".data, 'P'), ("paul".data, 'P'), ("pink".data, 'P'),
   ("queen".data, 'Q'),
   ("robert".data, 'R'), ("roger".data, 'R'), ("red".data, 'R'),
   ("sam".data, 'S'), ("sugar".data, 'S'), ("steve".data, 'S'),
   ("tom".data, 'T'), ("tommy".data, 'T'), ("tiger".data, 'T'),
   ("uncle".data, 'U'), ("union".data, 'U'),
   ("victory".data, 'V'), ("vincent".data, 'V'),
   ("william".data, 'W'), ("walter".data, 'W'),
   ("xerox".data, 'X'),
   ("yellow".data, 'Y'), ("young".data, 'Y'), ("yoke".data, 'Y'),
   ("zebra".data, 'Z'), ("zero".data, 'Z'), ("zoo".data, 'Z')]

/-- `LETTER_PRONUNCIATIONS` (lines 70–98), in property order. -/
def letterPronunciations : List (List Char × Char) :=
  [("ay".data, 'A'), ("aye".data, 'A'), ("eh".data, 'A'),
   ("bee".data, 'B'), ("be".data, 'B'),
   ("see".data, 'C'), ("sea".data, 'C'), ("cee".data, 'C'),
   ("dee".data, 'D'), ("de".data, 'D'),
   ("ee".data, 'E'), ("e".data, 'E'),
   ("eff".data, 'F'), ("ef".data, 'F'),
   ("gee".data, 'G'), ("jee".data, 'G'),
   ("aitch".data, 'H'), ("ach".data, 'H'), ("haitch".data, 'H'), ("h".data, 'H'),
   ("eye".data, 'I'), ("i".data, 'I'),
   ("jay".data, 'J'), ("jey".data, 'J'),
   ("kay".data, 'K'), ("key".data, 'K'), ("k".data, 'K'),
   ("el".data, 'L'), ("ell".data, 'L'),
   ("em".data, 'M'),
   ("en".data, 'N'),
   ("oh".data, 'O'), ("o".data, 'O'),
   ("pee".data, 'P'), ("pe".data, 'P'),
   ("cue".data, 'Q'), ("queue".data, 'Q'), ("kew".data, 'Q'),
   ("ar".data, 'R'), ("are".data, 'R'),
   ("ess".data, 'S'), ("es".data, 'S'),
   ("tee".data, 'T'), ("te".data, 'T'),
   ("you".data, 'U'), ("yu".data, 'U'),
   ("vee".data, 'V'), ("ve".data, 'V'),
   ("double you".data, 'W'), ("double u".data, 'W'), ("doubleyou".data, 'W'),
   ("ex".data, 'X'),
   ("why".data, 'Y'), ("wy".data, 'Y'), ("wye".data, 'Y'),
   ("zee".data, 'Z'), ("zed".data, 'Z'), ("zet".data, 'Z')]

/-- Plain-object property lookup. -/
def tableGet : List (List Char × Char) → List Char → Option Char
  | [], _ => none
  | (k, v) :: rest, w => if k = w then some v else tableGet rest w

/-- First `some` of `f` over a list (alternation in source order). -/
def firstSome {α β : Type} (f : α → Option β) : List α → Option β
  | [] => none
  | x :: xs =>
    match f x with
    | some r => some r
    | none => firstSome f xs

mutual
/-- `JS split(/\s+/)` — main state: accumulating a chunk. -/
def splitWSGo (cur : List Char) : List Char → List (List Char)
  | [] => [cur.reverse]
  | c :: rest =>
    if jsWS c then cur.reverse :: splitWSSkipGo rest else splitWSGo (c :: cur) rest

/-- `JS split(/\s+/)` — skipping a maximal whitespace run. -/
def splitWSSkipGo : List Char → List (List Char)
  | [] => [[]]
  | c :: rest => if jsWS c then splitWSSkipGo rest else splitWSGo [c] rest
end

/-- `String.prototype.split(/\s+/)` (empty edge pieces included, as in
JavaScript). -/
def splitWS (cs : List Char) : List (List Char) := splitWSGo [] cs

/-- `capitalizeFirst` (lines 348–354): lower-case, split on whitespace,
upper-case each word's first character, re-join with single spaces. -/
def capWord : List Char → List Char
  | [] => []
  | c :: r => jsToUpper c :: r

/-- `capitalizeFirst` (lines 348–354). -/
def capitalizeFirst (cs : List Char) : List Char :=
  List.intercalate [' '] ((splitWS (cs.map jsToLower)).map capWord)

/-- Characters of the separator class `[-,.]` (the non-whitespace members of
`[-,.\s]`). -/
def isPunctSep (c : Char) : Bool := c = '-' || c = ',' || c = '.'

/-- The separator `\s*[-,.\s]\s*` of the letter pattern, as a deterministic
maximal parse: a non-empty all-whitespace block, or whitespace around one
`[-,.]` character.  Returns `(consumed, rest)`. -/
def parseSep (cs : List Char) : Option (List Char × List Char) :=
  match cs.dropWhile jsWS with
  | [] => if cs.takeWhile jsWS = [] then none else some (cs.takeWhile jsWS, [])
  | p :: r2 =>
    if isPunctSep p then
      some (cs.takeWhile jsWS ++ p :: r2.takeWhile jsWS, r2.dropWhile jsWS)
    else if cs.takeWhile jsWS = [] then none
    else some (cs.takeWhile jsWS, cs.dropWhile jsWS)

/-- `\b` right after a just-consumed word character: holds at the end of
input or before a non-word character. -/
def boundaryAfterB : List Char → Bool
  | [] => true
  | c :: _ => !isWordChar c

/-- The trailing `(?:\s*[-,.\s]\s*([a-z]))*\b` of the letter pattern, greedy
with backtracking: extend while possible, fall back to the boundary check at
the current position.  Fuel-driven; the top-level call supplies
`length + 1`. -/
def matchTail : Nat → List Char → Option (List Char)
  | 0, _ => none
  | fuel + 1, cs =>
    match parseSep cs with
    | some (sep, l :: r) =>
      if isLowerLetter l then
        match matchTail fuel r with
        | some m => some (sep ++ l :: m)
        | none => if boundaryAfterB cs then some [] else none
      else if boundaryAfterB cs then some [] else none
    | _ => if boundaryAfterB cs then some [] else none

/-- One attempt of the letter pattern
`\b([a-z])\s*[-,.\s]\s*([a-z])\s*[-,.\s]\s*([a-z])(?:\s*[-,.\s]\s*([a-z]))*\b`
at the current position (the leading `\b` is checked by the scanner).
Returns the matched substring. -/
def matchAt (cs : List Char) : Option (List Char) :=
  match cs with
  | [] => none
  | c1 :: r1 =>
    if isLowerLetter c1 then
      match parseSep r1 with
      | some (sep1, c2 :: r2) =>
        if isLowerLetter c2 then
          match parseSep r2 with
          | some (sep2, c3 :: r3) =>
            if isLowerLetter c3 then
              match matchTail (r3.length + 1) r3 with
              | some m => some (c1 :: (sep1 ++ c2 :: (sep2 ++ c3 :: m)))
              | none => none
            else none
          | _ => none
        else none
      | _ => none
    else none

/-- `\b` before a lower-case letter: the previous character is absent or a
non-word character. -/
def prevNonWord : Option Char → Bool
  | none => true
  | some p => !isWordChar p

/-- Leftmost-match scan of the letter pattern (`text.match(letterPattern)`,
first element).  `prev` is the character before the current position. -/
def findLetterRun : Option Char → List Char → Option (List Char)
  | _, [] => none
  | prev, c :: rest =>
    if prevNonWord prev && isLowerLetter c then
      match matchAt (c :: rest) with
      | some m => some m
      | none => findLetterRun (some c) rest
    else findLetterRun (some c) rest

/-- The alternation keys of `buildPronunciationPattern` (lines 238–245):
`LETTER_PRONUNCIATIONS` keys sorted by length descending; the sort is
stable, so equal lengths keep property order. -/
def pronKeysSorted : List (List Char) :=
  (letterPronunciations.map Prod.fst).insertionSort
    (fun a b => b.length ≤ a.length)

/-- `\b` between two positions characterised by the neighbouring
characters (absent = outside the input). -/
def boundaryBetween : Option Char → Option Char → Bool
  | some p, some c => isWordChar p != isWordChar c
  | some p, none => isWordChar p
  | none, some c => isWordChar c
  | none, none => false

/-- Greedy `\s*` with backtracking: the remainders after consuming `j`
whitespace characters, longest first, paired with the last consumed
character (falling back to `prev`). -/
def wsChoices (prev : Option Char) (cs : List Char) :
    List (Option Char × List Char) :=
  (List.range ((cs.takeWhile jsWS).length + 1)).reverse.map fun j =>
    (if j = 0 then prev else (cs.take j).getLast? <|> prev, cs.drop j)

/-- The repetition `((?:K1|K2|…)\s*){2,}` followed by `\b`, with full
backtracking: prefer one more iteration (keys in sorted order, then `\s*`
greedy), otherwise — once at least two iterations are done — check the
boundary at the current position.  Returns the number of characters
consumed.  Fuel-driven (every iteration consumes at least one character). -/
def pronLoop : Nat → Nat → Option Char → List Char → Option Nat
  | 0, _, _, _ => none
  | fuel + 1, iters, prev, cs =>
    match firstSome (fun k =>
        if k.isPrefixOf cs then
          let rest0 := cs.drop k.length
          firstSome (fun pc =>
              match pronLoop fuel (iters + 1) pc.1 pc.2 with
              | some n => some (k.length + (rest0.length - pc.2.length) + n)
              | none => none)
            (wsChoices (k.getLast? <|> prev) rest0)
        else none) pronKeysSorted with
    | some n => some n
    | none =>
      if 2 ≤ iters && boundaryBetween prev cs.head? then some 0 else none

/-- Leftmost match of the pronunciation pattern
`\b((?:…)\s*){2,}\b` (`text.match(pronunciationPattern)`, first element). -/
def pronFind : Option Char → List Char → Option (List Char)
  | _, [] => none
  | prev, c :: rest =>
    match (if boundaryBetween prev (some c) then
        pronLoop ((c :: rest).length + 1) 0 prev (c :: rest)
      else none) with
    | some n => some ((c :: rest).take n)
    | none => pronFind (some c) rest

/-- `convertPronunciationsToLetters` (lines 250–274). -/
def convertPronunciationsToLetters (text : List Char) : List Char :=
  (splitWS (text.map jsToLower)).foldl
    (fun result w =>
      match w with
      | [c] =>
        if isAsciiLetter c then result ++ [jsToUpper c]
        else
          match tableGet letterPronunciations w with
          | some ch => result ++ [ch]
          | none =>
            match tableGet phoneticAlphabet w with
            | some ch => result ++ [ch]
            | none => result
      | _ =>
        match tableGet letterPronunciations w with
        | some ch => result ++ [ch]
        | none =>
          match tableGet phoneticAlphabet w with
          | some ch => result ++ [ch]
          | none => result)
    []

/-- The alternatives of `(?:spelled?|that'?s?|it'?s?)`, in the order the
regex engine tries them (greedy optionals first). -/
def cueAlternatives : List (List Char) :=
  ["spelled".data, "spelle".data,
   ['t', 'h', 'a', 't', apoC, 's'], ['t', 'h', 'a', 't', apoC],
   "thats".data, "that".data,
   ['i', 't', apoC, 's'], ['i', 't', apoC],
   "its".data, "it".data]

/-- Greedy maximal run of `(?:\s*[-,.\s]\s*[a-z])*`; returns the consumed
characters and the rest.  Fuel-driven. -/
def sepLetterRun : Nat → List Char → List Char × List Char
  | 0, cs => ([], cs)
  | fuel + 1, cs =>
    match parseSep cs with
    | some (sep, l :: r) =>
      if isLowerLetter l then
        let m := sepLetterRun fuel r
        (sep ++ l :: m.1, m.2)
      else ([], cs)
    | _ => ([], cs)

/-- After a cue word: `\s+([a-z](?:\s*[-,.\s]\s*[a-z])+)`; returns the
captured group. -/
def cueTail (cs : List Char) : Option (List Char) :=
  let ws := cs.takeWhile jsWS
  if ws = [] then none
  else
    match cs.dropWhile jsWS with
    | [] => none
    | c :: r2 =>
      if isLowerLetter c then
        let m := sepLetterRun (r2.length + 1) r2
        if m.1 = [] then none else some (c :: m.1)
      else none

/-- Leftmost match of the spelling-cue pattern
`(?:spelled?|that'?s?|it'?s?)\s+([a-z](?:\s*[-,.\s]\s*[a-z])+)` (capture
group 1). -/
def cueFind : List Char → Option (List Char)
  | [] => none
  | c :: rest =>
    match firstSome (fun alt =>
        if alt.isPrefixOf (c :: rest) then cueTail ((c :: rest).drop alt.length)
        else none) cueAlternatives with
    | some grp => some grp
    | none => cueFind rest

/-- `extractSpelledName` (lines 195–233): letter pattern, then pronunciation
pattern, then spelling-cue pattern. -/
def extractSpelledName (text : List Char) : Option (List Char) :=
  match
    (match findLetterRun none text with
     | some m =>
       let letters := m.filter isAsciiLetter
       if 2 ≤ letters.length then some (letters.map jsToUpper) else none
     | none => none) with
  | some r => some r
  | none =>
    match
      (match pronFind none text with
       | some m0 =>
         let conv := convertPronunciationsToLetters m0
         if 2 ≤ conv.length then some conv else none
       | none => none) with
    | some r => some r
    | none =>
      match cueFind text with
      | some grp =>
        let letters := grp.filter isAsciiLetter
        if 2 ≤ letters.length then some (letters.map jsToUpper) else none
      | none => none

/-- The `NatoState` of the `extractNatoPhoneticName` loop (lines 280–308). -/
structure NatoState where
  result : List Char
  consecutive : Nat
  maxConsecutive : Nat
  best : List Char
deriving DecidableEq

/-- One word step of `extractNatoPhoneticName`. -/
def natoFold (st : NatoState) (w : List Char) : NatoState :=
  let cleaned := w.filter isLowerLetter
  match tableGet phoneticAlphabet cleaned with
  | some ch =>
    let result := st.result ++ [ch]
    let consecutive := st.consecutive + 1
    if st.maxConsecutive < consecutive then
      { result := result, consecutive := consecutive,
        maxConsecutive := consecutive, best := result }
    else
      { st with result := result, consecutive := consecutive }
  | none => { st with consecutive := 0, result := [] }

/-- `extractNatoPhoneticName` (lines 280–308). -/
def extractNatoPhoneticName (text : List Char) : Option (List Char) :=
  let st := (splitWS text).foldl natoFold
    { result := [], consecutive := 0, maxConsecutive := 0, best := [] }
  if 2 ≤ st.maxConsecutive then some st.best else none

/-- The leading filler phrases of `extractPhoneticName` and
`cleanTranscript`, in alternation order. -/
def leadFillers : List (List Char) :=
  ["my name is".data,
   ['i', apoC, 'm'],
   "i am".data,
   "this is".data,
   ['i', 't', apoC, 's'],
   "call me".data,
   "they call me".data]

/-- `^(…)\s+` replacement: case-insensitive phrase prefix followed by at
least one whitespace character; the match (phrase and whitespace run) is
removed. -/
def stripLeadFiller (cs : List Char) : List Char :=
  match leadFillers.find? (fun p =>
      p.isPrefixOf (cs.map jsToLower) &&
      (match cs.drop p.length with
       | [] => false
       | c :: _ => jsWS c)) with
  | some p => (cs.drop p.length).dropWhile jsWS
  | none => cs

/-- The keywords of the trailing filler `\s+(here|speaking|and|that's|spelled).*$`. -/
def trailKeywords : List (List Char) :=
  ["here".data, "speaking".data, "and".data,
   ['t', 'h', 'a', 't', apoC, 's'], "spelled".data]

/-- Cut the input at the leftmost whitespace run that is followed by one of
the trailing keywords (the `.*$` swallows the remainder; inputs are
single-line). -/
def trailCut : List Char → List Char
  | [] => []
  | c :: rest =>
    if jsWS c &&
        (trailKeywords.any fun kw => kw.isPrefixOf ((rest.dropWhile jsWS).map jsToLower)) then
      []
    else c :: trailCut rest

/-- The name match `^([a-z]+(?:\s+[a-z]+)?)` of `extractPhoneticName`. -/
def phoneticNameMatch (cs : List Char) : Option (List Char) :=
  let w1 := cs.takeWhile isLowerLetter
  if w1 = [] then none
  else
    let r1 := cs.drop w1.length
    let ws := r1.takeWhile jsWS
    if ws = [] then some w1
    else
      let w2 := (r1.drop ws.length).takeWhile isLowerLetter
      if w2 = [] then some w1 else some (w1 ++ ws ++ w2)

/-- `extractPhoneticName` (lines 313–332); `none` models the `null`
result. -/
def extractPhoneticName (text : List Char) : Option (List Char) :=
  let c1 := jsTrim (trailCut (stripLeadFiller text))
  let c2 := if c1.contains ',' then jsTrim (c1.takeWhile (fun c => c ≠ ',')) else c1
  match phoneticNameMatch c2 with
  | some m => some m
  | none => if c2 = [] then none else some c2

/-- `cleanTranscript` (lines 337–343): leading filler, then a trailing
`\s+(here|speaking)$`, then trailing `[.,!?]+`, then trim. -/
def cleanTranscript (text : List Char) : List Char :=
  let t1 := stripLeadFiller text
  let t2 :=
    match (["here".data, "speaking".data].find? fun kw =>
        kw.isPrefixOf ((t1.reverse.take kw.length).reverse.map jsToLower) &&
        kw.length ≤ t1.length) with
    | some kw =>
      let pre := t1.take (t1.length - kw.length)
      let ws := pre.reverse.takeWhile jsWS
      if ws = [] then t1 else pre.take (pre.length - ws.length)
    | none => t1
  let t3 := (t2.reverse.dropWhile (fun c =>
    c = '.' || c = ',' || c = '!' || c = '?')).reverse
  jsTrim t3

/-- Confidence levels of a name extraction. -/
inductive Conf
  | high
  | medium
  | low
deriving DecidableEq

/-- Extraction methods. -/
inductive Mthd
  | spelled
  | nato
  | phonetic
  | combined
deriving DecidableEq

/-- `NameExtractionResult` (the `debug` field carries no behaviour and is
omitted). -/
structure NameExtractionResult where
  name : List Char
  confidence : Conf
  method : Mthd
  originalText : List Char
deriving DecidableEq

/-- `extractName` (lines 121–186): trim, lower-case, try spelled / NATO /
phonetic in priority order, fall back to the cleaned transcript with low
confidence. -/
def extractName (transcript : List Char) : NameExtractionResult :=
  let originalText := jsTrim transcript
  let normalized := originalText.map jsToLower
  let spelledName := extractSpelledName normalized
  let natoName := extractNatoPhoneticName normalized
  let phoneticName := extractPhoneticName normalized
  if (match spelledName with
      | some sp => decide (2 ≤ sp.length)
      | none => false) then
    { name := capitalizeFirst (spelledName.getD []), confidence := Conf.high,
      method := Mthd.spelled, originalText := originalText }
  else if (match natoName with
      | some na => decide (2 ≤ na.length)
      | none => false) then
    { name := capitalizeFirst (natoName.getD []), confidence := Conf.high,
      method := Mthd.nato, originalText := originalText }
  else
    match phoneticName with
    | some p =>
      { name := capitalizeFirst p, confidence := Conf.medium,
        method := Mthd.phonetic, originalText := originalText }
    | none =>
      { name := capitalizeFirst (cleanTranscript originalText),
        confidence := Conf.low, method := Mthd.phonetic,
        originalText := originalText }

set_option maxRecDepth 10000

/-- **C8.**  The three specified evaluations of `extractName`:
`"J-O-H-N"` → John / high / spelled, `"My name is Sarah, thanks"` →
Sarah / medium / phonetic, `"Juliet Oscar Hotel November"` → John / high /
nato. -/
theorem extractName_specified_evaluations :
    extractName "J-O-H-N".data =
      { name := "John".data, confidence := Conf.high, method := Mthd.spelled,
        originalText := "J-O-H-N".data } ∧
    extractName "My name is Sarah, thanks".data =
      { name := "Sarah".data, confidence := Conf.medium,
        method := Mthd.phonetic,
        originalText := "My name is Sarah, thanks".data } ∧
    extractName "Juliet Oscar Hotel November".data =
      { name := "John".data, confidence := Conf.high, method := Mthd.nato,
        originalText := "Juliet Oscar Hotel November".data } := by
  refine ⟨by decide, by decide, by decide⟩

/-- **C7, counterexample.**  `"J-O"` consists of two consecutive
single-letter tokens separated by a hyphen, yet spelled-letter detection
does not fire: the letter pattern requires three letters, so `extractName`
falls through to the phonetic path and returns name `"J"` with confidence
medium and method phonetic — not the concatenated letters with confidence
high and method spelled. -/
theorem spelledDetection_twoLetters_counterexample :
    extractName "J-O".data =
      { name := "J".data, confidence := Conf.medium, method := Mthd.phonetic,
        originalText := "J-O".data } ∧
    extractSpelledName ("J-O".data.map jsToLower) = none := by
  refine ⟨by decide, by decide⟩

theorem isLowerLetter_not_ws {c : Char} (h : isLowerLetter c = true) :
    jsWS c = false := by
  unfold isLowerLetter at h
  simp only [Bool.and_eq_true, decide_eq_true_eq] at h
  cases hws : jsWS c
  · rfl
  · exfalso
    unfold jsWS at hws
    simp only [Bool.or_eq_true, Bool.and_eq_true, decide_eq_true_eq] at hws
    omega

theorem isLowerLetter_not_punct {c : Char} (h : isLowerLetter c = true) :
    isPunctSep c = false := by
  cases hp : isPunctSep c
  · rfl
  · exfalso
    unfold isPunctSep at hp
    simp only [Bool.or_eq_true, decide_eq_true_eq] at hp
    rcases hp with (hp | hp) | hp <;> subst hp <;> exact absurd h (by decide)

theorem isPunctSep_not_ws {c : Char} (h : isPunctSep c = true) :
    jsWS c = false := by
  unfold isPunctSep at h
  simp only [Bool.or_eq_true, decide_eq_true_eq] at h
  rcases h with (h | h) | h <;> subst h <;> rfl

theorem isLowerLetter_word {c : Char} (h : isLowerLetter c = true) :
    isWordChar c = true := by
  unfold isLowerLetter at h
  simp only [Bool.and_eq_true, decide_eq_true_eq] at h
  unfold isWordChar isAsciiLetter
  simp only [Bool.or_eq_true, Bool.and_eq_true, decide_eq_true_eq]
  omega

theorem isLowerLetter_ascii {c : Char} (h : isLowerLetter c = true) :
    isAsciiLetter c = true := by
  unfold isLowerLetter at h
  simp only [Bool.and_eq_true, decide_eq_true_eq] at h
  unfold isAsciiLetter
  simp only [Bool.or_eq_true, Bool.and_eq_true, decide_eq_true_eq]
  omega

theorem takeWhile_append_all {p : Char → Bool} {w : List Char}
    (hw : ∀ x ∈ w, p x = true) (l : List Char) :
    (w ++ l).takeWhile p = w ++ l.takeWhile p := by
  induction w with
  | nil => rfl
  | cons a w ih =>
    have ha := hw a (List.mem_cons_self a w)
    simp only [List.cons_append, List.takeWhile_cons, ha, if_true]
    rw [ih (fun x hx => hw x (List.mem_cons_of_mem a hx))]

theorem dropWhile_append_all {p : Char → Bool} {w : List Char}
    (hw : ∀ x ∈ w, p x = true) (l : List Char) :
    (w ++ l).dropWhile p = l.dropWhile p := by
  induction w with
  | nil => rfl
  | cons a w ih =>
    have ha := hw a (List.mem_cons_self a w)
    simp only [List.cons_append, List.dropWhile_cons, ha, if_true]
    exact ih (fun x hx => hw x (List.mem_cons_of_mem a hx))

theorem takeWhile_cons_false {p : Char → Bool} {c : Char} (hc : p c = false)
    (l : List Char) : (c :: l).takeWhile p = [] := by
  simp [List.takeWhile_cons, hc]

theorem dropWhile_cons_false {p : Char → Bool} {c : Char} (hc : p c = false)
    (l : List Char) : (c :: l).dropWhile p = c :: l := by
  simp [List.dropWhile_cons, hc]

/-- A non-empty separator block of the letter pattern: all whitespace, or
whitespace around a single `[-,.]` character. -/
def IsSepBlockB (cs : List Char) : Bool :=
  (!cs.isEmpty) &&
    (match cs.dropWhile jsWS with
     | [] => true
     | p :: r2 => isPunctSep p && r2.all jsWS)

theorem parseSep_sepBlock {sep : List Char} (hs : IsSepBlockB sep = true)
    {l : Char} (hl : isLowerLetter l = true) (r : List Char) :
    parseSep (sep ++ l :: r) = some (sep, l :: r) := by
  unfold IsSepBlockB at hs
  simp only [Bool.and_eq_true, Bool.not_eq_true'] at hs
  obtain ⟨hne, hshape⟩ := hs
  have hne2 : sep ≠ [] := by
    intro h
    rw [h] at hne
    exact absurd hne (by decide)
  have hdecomp : sep.takeWhile jsWS ++ sep.dropWhile jsWS = sep :=
    List.takeWhile_append_dropWhile jsWS sep
  have hwall : ∀ x ∈ sep.takeWhile jsWS, jsWS x = true := by
    intro x hx
    exact List.mem_takeWhile_imp hx
  have hlws : jsWS l = false := isLowerLetter_not_ws hl
  have hlp : isPunctSep l = false := isLowerLetter_not_punct hl
  cases hd : sep.dropWhile jsWS with
  | nil =>
    have hsw : sep.takeWhile jsWS = sep := by
      conv_rhs => rw [← hdecomp]
      rw [hd, List.append_nil]
    have hall : ∀ x ∈ sep, jsWS x = true := by
      intro x hx
      refine hwall x ?_
      rw [hsw]
      exact hx
    have hdr : (sep ++ l :: r).dropWhile jsWS = l :: r := by
      rw [dropWhile_append_all hall, dropWhile_cons_false hlws]
    have htw : (sep ++ l :: r).takeWhile jsWS = sep := by
      rw [takeWhile_append_all hall, takeWhile_cons_false hlws, List.append_nil]
    unfold parseSep
    rw [hdr, htw]
    dsimp only
    rw [if_neg (by simp [hlp]), if_neg hne2]
  | cons p r2 =>
    rw [hd] at hshape
    simp only [Bool.and_eq_true, List.all_eq_true] at hshape
    obtain ⟨hp, hr2⟩ := hshape
    have hsep : sep = sep.takeWhile jsWS ++ p :: r2 := by
      conv_lhs => rw [← hdecomp]
      rw [hd]
    have hpws : jsWS p = false := isPunctSep_not_ws hp
    have hassoc : sep ++ l :: r = sep.takeWhile jsWS ++ (p :: (r2 ++ l :: r)) := by
      conv_lhs => rw [hsep]
      rw [List.append_assoc, List.cons_append]
    have hdr : (sep ++ l :: r).dropWhile jsWS = p :: (r2 ++ l :: r) := by
      rw [hassoc, dropWhile_append_all hwall, dropWhile_cons_false hpws]
    have htw : (sep ++ l :: r).takeWhile jsWS = sep.takeWhile jsWS := by
      rw [hassoc, takeWhile_append_all hwall, takeWhile_cons_false hpws,
        List.append_nil]
    have ht2 : (r2 ++ l :: r).takeWhile jsWS = r2 := by
      rw [takeWhile_append_all hr2, takeWhile_cons_false hlws, List.append_nil]
    have hd2 : (r2 ++ l :: r).dropWhile jsWS = l :: r := by
      rw [dropWhile_append_all hr2, dropWhile_cons_false hlws]
    unfold parseSep
    rw [hdr]
    dsimp only
    rw [if_pos hp, htw, ht2, hd2]
    rw [show sep.takeWhile jsWS ++ p :: r2 = sep from hsep.symm]

theorem sepBlock_ne_nil {sep : List Char} (hs : IsSepBlockB sep = true) :
    sep ≠ [] := by
  intro h
  rw [h] at hs
  exact absurd hs (by decide)

/-- The tail of a spelled-letter run: `k` further letters, each preceded by
a separator block. -/
inductive RunTail : Nat → List Char → Prop
  | nil : RunTail 0 []
  | cons (sep : List Char) (l : Char) (k : Nat) (rest : List Char) :
      IsSepBlockB sep = true → isLowerLetter l = true → RunTail k rest →
      RunTail (k + 1) (sep ++ l :: rest)

theorem matchTail_isSome {k : Nat} {t : List Char} (hrt : RunTail k t)
    (post : List Char) (hpost : boundaryAfterB post = true) :
    ∀ fuel, t.length + 1 ≤ fuel → (matchTail fuel (t ++ post)).isSome = true := by
  induction hrt with
  | nil =>
    intro fuel hfuel
    match fuel, hfuel with
    | f + 1, _ =>
      show (matchTail (f + 1) post).isSome = true
      unfold matchTail
      cases hps : parseSep post with
      | none => simp [hpost]
      | some pr =>
        obtain ⟨sep, rest⟩ := pr
        cases rest with
        | nil => simp [hpost]
        | cons l r =>
          cases hl : isLowerLetter l with
          | false => simp [hpost, hl]
          | true =>
            cases hmt : matchTail f r with
            | none => simp [hl, hmt, hpost]
            | some m => simp [hl, hmt]
  | cons sep l k rest hsep hl hrt ih =>
    intro fuel hfuel
    have hlen : 1 ≤ sep.length := by
      cases hsp : sep with
      | nil => exact absurd hsp (sepBlock_ne_nil hsep)
      | cons a s => simp
    match fuel, (by omega : 1 ≤ fuel) with
    | f + 1, _ =>
      have hre : (sep ++ l :: rest) ++ post = sep ++ l :: (rest ++ post) := by
        simp
      show (matchTail (f + 1) ((sep ++ l :: rest) ++ post)).isSome = true
      rw [hre]
      unfold matchTail
      rw [parseSep_sepBlock hsep hl]
      dsimp only
      rw [hl]
      have hf : rest.length + 1 ≤ f := by
        have := hfuel
        simp only [List.length_append, List.length_cons] at this
        omega
      have := ih f hf
      cases hmt : matchTail f (rest ++ post) with
      | none => rw [hmt] at this; exact absurd this (by simp)
      | some m => simp [hmt]

theorem matchAt_isSome {c : Char} (hc : isLowerLetter c = true) {k : Nat}
    {t : List Char} (hrt : RunTail k t) (hk : 2 ≤ k)
    (post : List Char) (hpost : boundaryAfterB post = true) :
    (matchAt (c :: (t ++ post))).isSome = true := by
  cases hrt with
  | nil => omega
  | cons sep1 c2 k1 rest1 hsep1 hc2 hrt1 =>
    cases hrt1 with
    | nil => omega
    | cons sep2 c3 k2 rest2 hsep2 hc3 hrt2 =>
      unfold matchAt
      dsimp only
      rw [if_pos hc]
      have ha1 : (sep1 ++ c2 :: (sep2 ++ c3 :: rest2)) ++ post =
          sep1 ++ c2 :: ((sep2 ++ c3 :: rest2) ++ post) := by simp
      rw [ha1, parseSep_sepBlock hsep1 hc2]
      dsimp only
      rw [if_pos hc2]
      have ha2 : (sep2 ++ c3 :: rest2) ++ post = sep2 ++ c3 :: (rest2 ++ post) := by
        simp
      rw [ha2, parseSep_sepBlock hsep2 hc3]
      dsimp only
      rw [if_pos hc3]
      have hmt := matchTail_isSome hrt2 post hpost ((rest2 ++ post).length + 1)
        (by simp)
      cases hm : matchTail ((rest2 ++ post).length + 1) (rest2 ++ post) with
      | none => rw [hm] at hmt; exact absurd hmt (by simp)
      | some m => simp [hm]

/-- Effective previous character at a position after `pre`. -/
def lastOr (pre : List Char) (prev : Option Char) : Option Char :=
  match pre.getLast? with
  | some p => some p
  | none => prev

theorem lastOr_cons (a : Char) (pre : List Char) (prev : Option Char) :
    lastOr (a :: pre) prev = lastOr pre (some a) := by
  cases pre with
  | nil => rfl
  | cons b l =>
    unfold lastOr
    rw [List.getLast?_cons_cons]
    cases hgl : (b :: l).getLast? with
    | none => exact absurd hgl (by simp)
    | some p => rfl

theorem findLetterRun_isSome (pre : List Char) (prev : Option Char)
    {c : Char} (hc : isLowerLetter c = true) {k : Nat} {t : List Char}
    (hrt : RunTail k t) (hk : 2 ≤ k)
    (post : List Char) (hpost : boundaryAfterB post = true)
    (hb : prevNonWord (lastOr pre prev) = true) :
    (findLetterRun prev (pre ++ c :: (t ++ post))).isSome = true := by
  induction pre generalizing prev with
  | nil =>
    show (findLetterRun prev (c :: (t ++ post))).isSome = true
    unfold findLetterRun
    have hb2 : prevNonWord prev = true := hb
    rw [hb2, hc]
    simp only [Bool.and_self]
    rw [if_pos trivial]
    have hma := matchAt_isSome hc hrt hk post hpost
    cases hm : matchAt (c :: (t ++ post)) with
    | none => rw [hm] at hma; exact absurd hma (by simp)
    | some m => simp [hm]
  | cons a pre ih =>
    show (findLetterRun prev (a :: (pre ++ c :: (t ++ post)))).isSome = true
    have hb2 : prevNonWord (lastOr pre (some a)) = true := by
      rw [← lastOr_cons a pre prev]
      exact hb
    unfold findLetterRun
    cases hcond : (prevNonWord prev && isLowerLetter a) with
    | false =>
      rw [if_neg (by simp)]
      exact ih (some a) hb2
    | true =>
      rw [if_pos rfl]
      cases hm : matchAt (a :: (pre ++ c :: (t ++ post))) with
      | none =>
        simp only [hm]
        exact ih (some a) hb2
      | some m => simp [hm]

theorem matchAt_letters {cs m : List Char} (h : matchAt cs = some m) :
    3 ≤ (m.filter isAsciiLetter).length := by
  cases cs with
  | nil => cases h
  | cons c1 r1 =>
    simp only [matchAt] at h
    cases hc1 : isLowerLetter c1 with
    | false => rw [hc1] at h; simp at h
    | true =>
      rw [hc1, if_pos rfl] at h
      cases hp1 : parseSep r1 with
      | none => rw [hp1] at h; simp at h
      | some pr1 =>
        obtain ⟨sep1, rest1⟩ := pr1
        rw [hp1] at h
        cases rest1 with
        | nil => simp at h
        | cons c2 r2 =>
          dsimp only at h
          cases hc2 : isLowerLetter c2 with
          | false => rw [hc2] at h; simp at h
          | true =>
            rw [hc2, if_pos rfl] at h
            cases hp2 : parseSep r2 with
            | none => rw [hp2] at h; simp at h
            | some pr2 =>
              obtain ⟨sep2, rest2⟩ := pr2
              rw [hp2] at h
              cases rest2 with
              | nil => simp at h
              | cons c3 r3 =>
                dsimp only at h
                cases hc3 : isLowerLetter c3 with
                | false => rw [hc3] at h; simp at h
                | true =>
                  rw [hc3, if_pos rfl] at h
                  cases hmt : matchTail (r3.length + 1) r3 with
                  | none => rw [hmt] at h; simp at h
                  | some mt =>
                    rw [hmt] at h
                    simp only [Option.some.injEq] at h
                    subst h
                    rw [List.filter_cons_of_pos (isLowerLetter_ascii hc1)]
                    simp only [List.length_cons, List.filter_append,
                      List.length_append]
                    rw [List.filter_cons_of_pos (isLowerLetter_ascii hc2)]
                    rw [List.filter_append,
                      List.filter_cons_of_pos (isLowerLetter_ascii hc3)]
                    simp only [List.length_cons, List.length_append]
                    omega

theorem findLetterRun_from_matchAt :
    ∀ (prev : Option Char) (cs m : List Char),
      findLetterRun prev cs = some m → ∃ l, matchAt l = some m := by
  intro prev cs
  induction cs generalizing prev with
  | nil => intro m h; cases h
  | cons c rest ih =>
    intro m h
    unfold findLetterRun at h
    by_cases hcond : (prevNonWord prev && isLowerLetter c) = true
    · rw [if_pos hcond] at h
      cases hm : matchAt (c :: rest) with
      | some m2 =>
        simp only [hm] at h
        exact ⟨c :: rest, by rw [hm, h]⟩
      | none =>
        simp only [hm] at h
        exact ih (some c) m h
    · rw [if_neg hcond] at h
      exact ih (some c) m h

/-- **C7, amended.**  Spelled-letter detection needs at least *three*
consecutive single-letter tokens (each pair separated by a non-empty
separator: whitespace, or one `-`/`,`/`.` with optional surrounding
whitespace), with word boundaries on both sides; two letters are not
enough.  On any input whose normalized text contains such a run,
`extractName` returns confidence high and method spelled, and the name is
the capitalization of the letters of the leftmost letter-pattern match
(at least three letters). -/
theorem spelledDetection_threeLetters (s : List Char)
    (h : ∃ pre c t post k,
      (jsTrim s).map jsToLower = pre ++ c :: (t ++ post) ∧
      isLowerLetter c = true ∧ RunTail k t ∧ 2 ≤ k ∧
      prevNonWord (lastOr pre none) = true ∧
      boundaryAfterB post = true) :
    (extractName s).method = Mthd.spelled ∧
    (extractName s).confidence = Conf.high ∧
    ∃ m, findLetterRun none ((jsTrim s).map jsToLower) = some m ∧
      3 ≤ (m.filter isAsciiLetter).length ∧
      (extractName s).name =
        capitalizeFirst ((m.filter isAsciiLetter).map jsToUpper) := by
  obtain ⟨pre, c, t, post, k, heq, hc, hrt, hk, hb, hpost⟩ := h
  have hfind : (findLetterRun none ((jsTrim s).map jsToLower)).isSome = true := by
    rw [heq]
    exact findLetterRun_isSome pre none hc hrt hk post hpost hb
  obtain ⟨m, hm⟩ := Option.isSome_iff_exists.mp hfind
  obtain ⟨l0, hl0⟩ := findLetterRun_from_matchAt none _ m hm
  have hlet : 3 ≤ (m.filter isAsciiLetter).length := matchAt_letters hl0
  have hsp : extractSpelledName ((jsTrim s).map jsToLower) =
      some ((m.filter isAsciiLetter).map jsToUpper) := by
    unfold extractSpelledName
    rw [hm]
    dsimp only
    rw [if_pos (by omega)]
  have hname : extractName s =
      { name := capitalizeFirst ((m.filter isAsciiLetter).map jsToUpper),
        confidence := Conf.high, method := Mthd.spelled,
        originalText := jsTrim s } := by
    unfold extractName
    dsimp only
    rw [hsp]
    dsimp only
    rw [if_pos (by
      simp only [decide_eq_true_eq, List.length_map]
      omega)]
    rfl
  rw [hname]
  exact ⟨rfl, rfl, m, hm, hlet, rfl⟩

/-- **C7, witness**: the amended theorem applied to `"J-O-H-N"`
(a four-letter hyphen-separated run). -/
theorem spelledDetection_threeLetters_witness :
    (extractName "J-O-H-N".data).method = Mthd.spelled ∧
    (extractName "J-O-H-N".data).confidence = Conf.high ∧
    ∃ m, findLetterRun none ((jsTrim "J-O-H-N".data).map jsToLower) = some m ∧
      3 ≤ (m.filter isAsciiLetter).length ∧
      (extractName "J-O-H-N".data).name =
        capitalizeFirst ((m.filter isAsciiLetter).map jsToUpper) :=
  spelledDetection_threeLetters "J-O-H-N".data
    ⟨[], 'j', "-o-h-n".data, [], 3, by decide, by decide,
     RunTail.cons "-".data 'o' 2 "-h-n".data (by decide) (by decide)
       (RunTail.cons "-".data 'h' 1 "-n".data (by decide) (by decide)
         (RunTail.cons "-".data 'n' 0 [] (by decide) (by decide) RunTail.nil)),
     by decide, by decide, by decide⟩
